import Mathlib

/-!
Verification of the adaptive double-pendulum fractal engine
(`src/pendulum.rs`, `src/p2.rs`, `src/avgspeed.rs`).

Modelling conventions, shared by the whole file:

* `f64` values are embedded as `ℚ`.  The decimal literals of the source
  (`9.81`, `0.01`, …) are embedded as the rationals they denote; the two
  constants that sit on comparison boundaries used by the claims — `PI` and
  the adjacency epsilon `0.1` — are embedded as the exact binary64 values of
  `std::f64::consts::PI` and of the literal `0.1`.
* The transcendental functions (`sin`, `cos`, `exp`), whose values no claim
  depends on, are passed as explicit function parameters `sinF cosF expF`.
* `f64::INFINITY` only occurs as the initial value of the `prev` field, whose
  sole use is the `is_finite` test in `step`; `prev` is embedded as
  `Option ℚ` with `none` standing for the non-finite initial value.
* The `HashMap<usize, Rc<RefCell<DoublePendulum>>>` maps of the family are
  embedded as association lists `List (Nat × DoublePendulum)`; `Rc` aliasing
  is modelled by explicitly writing mutations back into the map entry that
  the Rust code mutates through the shared reference (and nowhere else, so
  that the places where the source loses a mutation — e.g. writes into the
  stale pre-generation active map — lose it in the model as well).
* Rust panics (`assert!`, indexing a missing key, `unwrap`) are modelled by
  `Option`-valued functions returning `none`.
* Rendering state (colors, canvas, draw queue, timers) is not modelled: no
  claim mentions it.  Where the source also mutates a color
  (`update_color`, color inheritance in `split`) the model simply omits the
  field.
-/

set_option maxHeartbeats 1000000
set_option maxRecDepth 4000

/-- Lookup in an association list (first entry wins), the embedding of
`HashMap::get`. -/
def lookupA {α : Type} : List (Nat × α) → Nat → Option α
  | [], _ => none
  | (k, v) :: rest, key => if k = key then some v else lookupA rest key

/-- Insert-or-replace in an association list, the embedding of
`HashMap::insert`. -/
def insertA {α : Type} : List (Nat × α) → Nat → α → List (Nat × α)
  | [], key, v => [(key, v)]
  | (k, w) :: rest, key, v =>
    if k = key then (key, v) :: rest else (k, w) :: insertA rest key v

/-- Modify the entry at a key, if present (the embedding of mutating through
`get_mut`). -/
def modifyA {α : Type} : List (Nat × α) → Nat → (α → α) → List (Nat × α)
  | [], _, _ => []
  | (k, w) :: rest, key, g =>
    if k = key then (k, g w) :: rest else (k, w) :: modifyA rest key g

/-- Insert every pair of `l` into the map `m`. -/
def insertAllA {α : Type} (m : List (Nat × α)) (l : List (Nat × α)) :
    List (Nat × α) :=
  l.foldl (fun acc kv => insertA acc kv.1 kv.2) m

/-- `avgspeed.rs`: the state of `RollingAverage`, instantiated (as in
`pendulum.rs`) at `u32`.  The front of `hist` is the front of the
`VecDeque` (the oldest sample).  The sums stay far below `2 ^ 32` in every
use and statement in this file, so `Nat` arithmetic agrees with `u32`. -/
structure RollingAverage where
  hist : List Nat
  sum : Nat
  size : Nat
deriving DecidableEq, Repr

/-- `RollingAverage::new`. -/
def RollingAverage.new (size : Nat) : RollingAverage :=
  { hist := [], sum := 0, size := size }

/-- `RollingAverage::add`: push the sample, add it to the running sum, and
once the window exceeds `size` pop the oldest sample and subtract it. -/
def RollingAverage.add (self : RollingAverage) (val : Nat) : RollingAverage :=
  let hist := self.hist ++ [val]
  let sum := self.sum + val
  if self.size < hist.length then
    { self with hist := hist.tail, sum := sum - hist.headD 0 }
  else
    { self with hist := hist, sum := sum }

/-- `RollingAverage::get`: `0` on an empty window, otherwise the running sum
divided (`u32` division, i.e. truncating) by the window length. -/
def RollingAverage.get (self : RollingAverage) : Nat :=
  if self.hist.length = 0 then 0 else self.sum / self.hist.length

/-- Fold `add` over a list of samples (used to state window properties). -/
def RollingAverage.addAll (self : RollingAverage) (vals : List Nat) :
    RollingAverage :=
  vals.foldl RollingAverage.add self

/-- `pendulum.rs` `Config`. -/
structure Config where
  xmin : ℚ
  xmax : ℚ
  ymin : ℚ
  ymax : ℚ
  color_step : ℚ
  color_mod : Nat
  dive_diff : ℚ
  max_step : Nat
  min_pixel : ℚ
  speed_a : ℚ
  speed_b : ℚ
deriving DecidableEq, Repr

/-- `const G: f64 = 9.81` (the rational denoted by the literal; no claim
depends on the final-ulp rounding of this constant). -/
def gravC : ℚ := 981 / 100

/-- `const L1: f64 = 80.0`. -/
def armL1 : ℚ := 80

/-- `const STEP_DELTA: f64 = 0.01`. -/
def stepDelta : ℚ := 1 / 100

/-- `std::f64::consts::PI`, exactly (`884279719003555 / 2 ^ 48`). -/
def piQ : ℚ := 884279719003555 / 281474976710656

/-- The adjacency tolerance `let epsilon = 0.1`, as the exact binary64 value
of the literal `0.1` (`3602879701896397 / 2 ^ 55`). -/
def epsilonAdj : ℚ := 3602879701896397 / 36028797018963968

/-- `pendulum.rs` `DoublePendulum`.  The `color` field is omitted (rendering
only); `p: DVec2` is split into `px`/`py`; `prev: f64` (initially
`f64::INFINITY`) is `Option ℚ`, `none` standing for the non-finite initial
value, so that `prev.is_finite()` is `prev.isSome`. -/
structure DoublePendulum where
  id : Nat
  childs : List Nat
  parent_id : Nat
  px : ℚ
  py : ℚ
  theta1 : ℚ
  theta2 : ℚ
  l1 : ℚ
  l2 : ℚ
  dt1 : ℚ
  dt2 : ℚ
  d2t1 : ℚ
  d2t2 : ℚ
  scale : ℚ
  neighbors : List Nat
  stopped : Bool
  steps : Nat
  prev : Option ℚ
  expired : Bool
deriving DecidableEq, Repr

/-- `DoublePendulum::new`. -/
def DoublePendulum.new (px py theta1 theta2 scale : ℚ) : DoublePendulum :=
  { id := 0
    parent_id := 0
    childs := []
    px := px
    py := py
    theta1 := theta1
    theta2 := theta2
    l1 := armL1
    l2 := armL1
    dt1 := 0
    dt2 := 0
    d2t1 := 0
    d2t2 := 0
    scale := scale
    neighbors := []
    stopped := false
    steps := 0
    prev := none
    expired := false }

/-- `DoublePendulum::new2`: map the anchor through the configured angle
ranges and derive both arm lengths from the domain width. -/
def DoublePendulum.new2 (px py width scale : ℚ) (config : Config) :
    DoublePendulum :=
  let theta1 := config.xmin + px / width * config.xmax
  let theta2 := config.ymin + py / width * config.ymax
  let this := DoublePendulum.new px py theta1 theta2 scale
  { this with l1 := width / 4 * 1, l2 := width / 4 * 1 }

/-- `DoublePendulum::width`: the footprint half-side `(l1 + l2) * scale`. -/
def DoublePendulum.width (self : DoublePendulum) : ℚ :=
  (self.l1 + self.l2) * self.scale

/-- `DoublePendulum::point_inside` (all four comparisons strict). -/
def DoublePendulum.point_inside (self : DoublePendulum) (x y : ℚ) : Bool :=
  let w := (self.l1 + self.l2) * self.scale
  decide (x > self.px - w ∧ x < self.px + w ∧ y > self.py - w ∧ y < self.py + w)

/-- `DoublePendulum::adjacent`. -/
def DoublePendulum.adjacent (self other : DoublePendulum) : Bool :=
  let w2 := self.width + other.width
  let dx := |self.px - other.px|
  let dy := |self.py - other.py|
  decide ((dx ≤ w2 ∧ |dy - w2| < epsilonAdj) ∨ (dy ≤ w2 ∧ |dx - w2| < epsilonAdj))

/-- `DoublePendulum::split`.  `none` models the `assert!(self.stopped)`
panic.  Otherwise returns the mutated `self` (its `childs` list extended
with the ids of the produced children — which at this point in the source
are all still the placeholder `0`, ids being assigned only later by
`update_neighbors`) together with the list of children. -/
def DoublePendulum.split (self : DoublePendulum) (width min_pixel : ℚ)
    (config : Config) : Option (DoublePendulum × List DoublePendulum) :=
  if !self.stopped then none
  else if self.width < min_pixel then some (self, [])
  else
    let d := self.width / 2
    let res : List DoublePendulum := []
    let res := if self.px - d > 0 ∧ self.py - d > 0 then
      res ++ [DoublePendulum.new2 (self.px - d) (self.py - d) width (self.scale / 2) config]
      else res
    let res := if self.px - d > 0 ∧ self.py + d < width then
      res ++ [DoublePendulum.new2 (self.px - d) (self.py + d) width (self.scale / 2) config]
      else res
    let res := if self.px + d < width ∧ self.py - d > 0 then
      res ++ [DoublePendulum.new2 (self.px + d) (self.py - d) width (self.scale / 2) config]
      else res
    let res := if self.px + d < width ∧ self.py + d < width then
      res ++ [DoublePendulum.new2 (self.px + d) (self.py + d) width (self.scale / 2) config]
      else res
    some ({ self with childs := self.childs ++ res.map (fun r => r.id) }, res)

/-- `DoublePendulum::step`.  Early-outs when already stopped; expires once
`steps` reaches `max_step`; otherwise performs one semi-implicit Euler step
(with `sinF`/`cosF` standing for `f64::sin`/`f64::cos`) and then runs the
θ2 flip detector against `prev` (skipped while `prev` is the initial
non-finite value). -/
def DoublePendulum.step (sinF cosF : ℚ → ℚ) (delta : ℚ) (max_step : Nat)
    (self : DoublePendulum) : DoublePendulum :=
  if self.stopped then self
  else if max_step ≤ self.steps then { self with stopped := true, expired := true }
  else
    let self := { self with steps := self.steps + 1 }
    let a := 2 * self.l1 + self.l2 - self.l2 * cosF (2 * self.theta1 - 2 * self.theta2)
    let d2t1 := (-gravC * (2 * self.l1 + self.l2) * sinF self.theta1
        - self.l2 * gravC * sinF (self.theta1 - 2 * self.theta2)
        - 2 * sinF (self.theta1 - self.theta2) * self.l2
          * (self.dt2 * self.dt2 * self.l2
            - self.dt1 * self.dt1 * self.l1 * cosF (self.theta1 - self.theta2)))
      / (self.l1 * a)
    let d2t2 := (2 * sinF (self.theta1 - self.theta2)
        * (self.dt1 * self.dt1 * self.l1 * (self.l1 + self.l2)
          + gravC * (self.l1 + self.l2) * cosF self.theta1
          + self.dt2 * self.dt2 * self.l2 * self.l2 * cosF (self.theta1 - self.theta2)))
      / (self.l2 * a)
    let dt1 := self.dt1 + d2t1 * delta
    let dt2 := self.dt2 + d2t2 * delta
    let theta1 := self.theta1 + dt1 * delta
    let theta2 := self.theta2 + dt2 * delta
    let fired : Bool :=
      match self.prev with
      | none => false
      | some prev =>
        decide ((dt2 > 0 ∧ ((theta2 < -piQ ∧ prev > -piQ) ∨ (theta2 > piQ ∧ prev < piQ)))
          ∨ (dt2 < 0 ∧ ((theta2 < -piQ ∧ prev > -piQ) ∨ (theta2 < piQ ∧ prev > piQ))))
    { self with
      d2t1 := d2t1, d2t2 := d2t2, dt1 := dt1, dt2 := dt2,
      theta1 := theta1, theta2 := theta2,
      stopped := fired, prev := some theta2 }

/-- `DoublePendulum::update`: `update_steps` calls of `step` with
`STEP_DELTA`. -/
def DoublePendulum.update (sinF cosF : ℚ → ℚ) (update_steps max_step : Nat)
    (self : DoublePendulum) : DoublePendulum :=
  (DoublePendulum.step sinF cosF stepDelta max_step)^[update_steps] self

example :
    (DoublePendulum.new2 1024 1024 2048 1
      { xmin := 0, xmax := 6, ymin := 0, ymax := 3, color_step := 100,
        color_mod := 6000, dive_diff := 41 / 50, max_step := 460000,
        min_pixel := 4, speed_a := 550, speed_b := 20 }).width = 1024 := by
  norm_num [DoublePendulum.new2, DoublePendulum.new, DoublePendulum.width]

/-- Truncating `as usize` cast of a (non-negative in all uses) `f64`. -/
def qToUsize (q : ℚ) : Nat := q.floor.toNat

/-- `pendulum.rs` `PendulumFamily`.  Rendering state (`canvas`, `to_draw`),
the timer `t` and the dead field `max_steps` are omitted.  The `dive`
marker set is the field `diveSet` (renamed: in Lean the field projection
would collide with the method `PendulumFamily.dive` below). -/
structure PendulumFamily where
  config : Config
  width : ℚ
  ps : List (Nat × DoublePendulum)
  done : List (Nat × DoublePendulum)
  diveSet : List Nat
  counter : Nat
  iter : Nat
  update_steps : Nat
  avg : RollingAverage
deriving DecidableEq, Repr

/-- `PendulumFamily::can_remove`: `false` when the id is not in `done`;
otherwise scan the recorded `childs`, returning `false` only when a child is
found in `done` with `stopped == false`.  (A child id absent from `done` is
skipped by the `if let`.) -/
def PendulumFamily.can_remove (self : PendulumFamily) (id : Nat) : Bool :=
  match lookupA self.done id with
  | none => false
  | some p =>
    p.childs.all fun c =>
      match lookupA self.done c with
      | some q => q.stopped
      | none => true

/-- The comparator of `find_all`'s `sort_by`: lexicographic on
`(scale, stopped)` with `false < true`, as `partial_cmp` orders Rust tuples.
`pickLe a b` is "`a` does not sort after `b`". -/
def pickLe (a b : DoublePendulum) : Bool :=
  decide (a.scale < b.scale ∨ (a.scale = b.scale ∧ a.stopped ≤ b.stopped))

/-- Insert into a list sorted by `le` (used to model `sort_by`). -/
def insertLe {α : Type} (le : α → α → Bool) (x : α) : List α → List α
  | [] => [x]
  | y :: ys => if le x y then x :: y :: ys else y :: insertLe le x ys

/-- Insertion sort by `le` (used to model `sort_by`; the claims only depend
on the sorted list being a rearrangement of the input). -/
def sortLe {α : Type} (le : α → α → Bool) : List α → List α
  | [] => []
  | x :: xs => insertLe le x (sortLe le xs)

/-- `PendulumFamily::find_all`: collect the cells of `done` and `ps` whose
footprint strictly contains the point, sort by `(scale, stopped)` and return
the first, if any. -/
def PendulumFamily.find_all (self : PendulumFamily) (x y : ℚ) :
    Option DoublePendulum :=
  let res := ((self.done ++ self.ps).map fun kv => kv.2).filter
    fun p => p.point_inside x y
  match sortLe pickLe res with
  | [] => none
  | r :: _ => some r

/-- The inner loop of `update_neighbors` for one child `c`: walk the parent
clone's neighbor ids; skip the parent itself; look the id up in `done` and
then in `ps`; on geometric adjacency push the found cell's id onto `c`'s
list and push `c.id` onto the found cell's list (through its map entry, the
embedding of the `RefCell` write). -/
def unInner (parent_id : Nat) (c : DoublePendulum)
    (done ps : List (Nat × DoublePendulum)) :
    List Nat → DoublePendulum × List (Nat × DoublePendulum) × List (Nat × DoublePendulum)
  | [] => (c, done, ps)
  | nid :: rest =>
    if nid = parent_id then unInner parent_id c done ps rest
    else
      match lookupA done nid with
      | some pn =>
        if c.adjacent pn then
          unInner parent_id { c with neighbors := c.neighbors ++ [pn.id] }
            (modifyA done nid fun q => { q with neighbors := q.neighbors ++ [c.id] })
            ps rest
        else unInner parent_id c done ps rest
      | none =>
        match lookupA ps nid with
        | some pn =>
          if c.adjacent pn then
            unInner parent_id { c with neighbors := c.neighbors ++ [pn.id] } done
              (modifyA ps nid fun q => { q with neighbors := q.neighbors ++ [c.id] })
              rest
          else unInner parent_id c done ps rest
        | none => unInner parent_id c done ps rest

/-- The outer loop of `update_neighbors`: for each child, allocate the next
id from the counter, set its parent to the parent clone's id, record the new
id in `nbs`, and run the inner loop. -/
def unChilds (parent_id pFieldId : Nat) (pNbs : List Nat) :
    List DoublePendulum → Nat → List (Nat × DoublePendulum) →
    List (Nat × DoublePendulum) → List Nat → List DoublePendulum →
    Nat × List (Nat × DoublePendulum) × List (Nat × DoublePendulum) × List Nat × List DoublePendulum
  | [], counter, done, ps, nbs, acc => (counter, done, ps, nbs, acc)
  | c :: rest, counter, done, ps, nbs, acc =>
    let counter := counter + 1
    let c := { c with id := counter, parent_id := pFieldId }
    let nbs := nbs ++ [counter]
    let (c, done, ps) := unInner parent_id c done ps pNbs
    unChilds parent_id pFieldId pNbs rest counter done ps nbs (acc ++ [c])

/-- `PendulumFamily::update_neighbors`.  `none` models the panic of
`self.done[&parent_id]` on a missing key.  After the per-child loop every
child's neighbor list is extended with `nbs` — the ids of *all* the new
children, its own id included. -/
def PendulumFamily.update_neighbors (self : PendulumFamily) (parent_id : Nat)
    (childs : List DoublePendulum) :
    Option (PendulumFamily × List DoublePendulum) :=
  match lookupA self.done parent_id with
  | none => none
  | some p =>
    let r := unChilds parent_id p.id p.neighbors childs self.counter self.done self.ps [] []
    let cs := r.2.2.2.2.map fun c => { c with neighbors := c.neighbors ++ r.2.2.2.1 }
    some ({ self with counter := r.1, done := r.2.1, ps := r.2.2.1 }, cs)

/-- The neighbor scan of `PendulumFamily::dive` for a stopped cell `p`:
for each neighbor id not yet skipped, look it up among the `done` cells; if
the step-count ratio is under `dive_diff` (in `f64`, `0/0` is NaN and the
comparison is then false, hence the `bsteps = 0` guard) or either cell is
expired, and the two are geometrically adjacent — then split the neighbor
(unless both are expired and it is small, or it is already marked in the
dive set, which only flags `add_current`).  Split neighbors are written back
to their `done` entry (the `RefCell` write), skipped from now on, marked in
the dive set, and their children are queued. -/
def diveScan (cfg : Config) (fwidth : ℚ) (p : DoublePendulum) :
    List Nat → List Nat → List Nat → Bool → List (Nat × DoublePendulum) →
    List (Nat × List DoublePendulum) →
    Option (List Nat × List Nat × Bool × List (Nat × DoublePendulum) × List (Nat × List DoublePendulum))
  | [], skip, diveSet, add_current, done, to_update =>
    some (skip, diveSet, add_current, done, to_update)
  | nid :: rest, skip, diveSet, add_current, done, to_update =>
    if nid ∈ skip then diveScan cfg fwidth p rest skip diveSet add_current done to_update
    else
      match lookupA done nid with
      | none => diveScan cfg fwidth p rest skip diveSet add_current done to_update
      | some n =>
        let asteps := min p.steps n.steps
        let bsteps := max p.steps n.steps
        let ratioUnder : Bool :=
          if bsteps = 0 then false else decide ((asteps : ℚ) / (bsteps : ℚ) < cfg.dive_diff)
        if (ratioUnder || p.expired || n.expired) && p.adjacent n then
          if p.expired && n.expired && decide (n.width < 16) then
            diveScan cfg fwidth p rest skip diveSet add_current done to_update
          else if n.id ∈ diveSet then
            diveScan cfg fwidth p rest skip diveSet true done to_update
          else
            match n.split fwidth cfg.min_pixel cfg with
            | none => none
            | some (n2, cs) =>
              diveScan cfg fwidth p rest (skip ++ [n.id]) (diveSet ++ [n.id])
                add_current (insertA done nid n2) (to_update ++ [(n.id, cs)])
        else diveScan cfg fwidth p rest skip diveSet add_current done to_update

/-- `PendulumFamily::dive`.  `none` models the `assert!(p.stopped)` panic
(or a panicking `split`).  Returns the updated family (dive set and `done`
write-backs) and the `to_update` queue of `(parent id, children)`.  When any
neighbor qualified (or was already marked), `p` itself is split last, its
mutation written back to its `done` entry (the cell is shared between the
stopped vector and `done`). -/
def PendulumFamily.dive (self : PendulumFamily) (p : DoublePendulum) :
    Option (PendulumFamily × List (Nat × List DoublePendulum)) :=
  if !p.stopped then none
  else
    match diveScan self.config self.width p p.neighbors [p.id] self.diveSet false self.done [] with
    | none => none
    | some (_, diveSet, add_current, done, to_update) =>
      if p.id ∉ diveSet ∧ ¬(p.expired = true ∧ p.width < 16) ∧
          (0 < to_update.length ∨ add_current = true) then
        match p.split self.width self.config.min_pixel self.config with
        | none => none
        | some (p2, cs) =>
          some ({ self with diveSet := diveSet ++ [p.id], done := insertA done p.id p2 },
            to_update ++ [(p.id, cs)])
      else
        some ({ self with diveSet := diveSet, done := done }, to_update)

/-- Phase one of `PendulumFamily::dive_all`: run `dive` over every stopped
cell, reading each cell from its `done` entry (the stopped vector's cells
are the very `Rc`s inserted into `done` during classification, so the entry
holds their current state); `none` models a panic (a stopped cell missing
from `done` cannot arise from `update`). -/
def diveAllScan (self : PendulumFamily) :
    List Nat → List (Nat × List DoublePendulum) →
    Option (PendulumFamily × List (Nat × List DoublePendulum))
  | [], to_update => some (self, to_update)
  | id :: rest, to_update =>
    match lookupA self.done id with
    | none => none
    | some p =>
      match self.dive p with
      | none => none
      | some (f2, tu) => diveAllScan f2 rest (to_update ++ tu)

/-- Phase two of `PendulumFamily::dive_all`: repair the neighbor graph for
every queued split and collect the children into the `next` map, keyed by
their freshly assigned ids. -/
def diveAllLink (self : PendulumFamily) :
    List (Nat × List DoublePendulum) → List (Nat × DoublePendulum) →
    Option (PendulumFamily × List (Nat × DoublePendulum))
  | [], next => some (self, next)
  | (pid, cs) :: rest, next =>
    match self.update_neighbors pid cs with
    | none => none
    | some (f2, cs2) =>
      diveAllLink f2 rest (insertAllA next (cs2.map fun c => (c.id, c)))

/-- `PendulumFamily::dive_all` over the ids of this generation's stopped
cells. -/
def PendulumFamily.dive_all (self : PendulumFamily) (stoppedIds : List Nat) :
    Option (PendulumFamily × List (Nat × DoublePendulum)) :=
  match diveAllScan self stoppedIds [] with
  | none => none
  | some (f2, to_update) => diveAllLink f2 to_update []

/-- The single-cell bootstrap rule of `PendulumFamily::update` (the block
guarded by `(next.len() == 0 && done.len() == 1) || (next.len() == 1 &&
done.len() == 0 && iter >= 1)`), applied after classification: pick the
first cell of `done` (falling back to `next`; `none` models the `unwrap`
panic when both are empty), force it stopped if it was not, split it,
re-insert it into `done` under its own id (and, when it came from `next`,
its shared `next` entry sees the same mutation), repair the children's
neighbor links and add them to `next`. -/
def PendulumFamily.bootStage (self : PendulumFamily)
    (next : List (Nat × DoublePendulum)) :
    Option (PendulumFamily × List (Nat × DoublePendulum)) :=
  if (next.length = 0 ∧ self.done.length = 1) ∨
      (next.length = 1 ∧ self.done.length = 0 ∧ 1 ≤ self.iter) then
    match self.done ++ next with
    | [] => none
    | (i, pref) :: _ =>
      let fromNext := self.done.length = 0
      let p := if !pref.stopped then { pref with stopped := true } else pref
      match p.split self.width self.config.min_pixel self.config with
      | none => none
      | some (p2, cs) =>
        let done2 := insertA self.done p2.id p2
        let next2 := if fromNext then insertA next i p2 else next
        match PendulumFamily.update_neighbors { self with done := done2 } p2.id cs with
        | none => none
        | some (f3, cs2) =>
          some (f3, insertAllA next2 (cs2.map fun c => (c.id, c)))
  else some (self, next)

/-- The sequential semantics of `PendulumFamily::update` after the parallel
physics fan-out, taking the per-cell integration `results` (worker results,
keyed by each cell's `id` field) as input: classification into stopped and
still-active, insertion of the stopped cells into `done` (plus telemetry),
the single-cell bootstrap rule, the step-rate update, the divergence pass,
and the installation of the next active map — which is built from the
worker results and the new children only, so neighbor-list writes made to
the stale pre-generation `ps` entries of still-active cells are discarded
here. -/
def PendulumFamily.postPhysics (expF : ℚ → ℚ) (self : PendulumFamily)
    (results : List (Nat × DoublePendulum)) : Option PendulumFamily :=
  let iter := self.iter + 1
  let stopped := results.filter fun kv => kv.2.stopped
  let nextA := results.filter fun kv => !kv.2.stopped
  let done := insertAllA self.done stopped
  let avg := stopped.foldl (fun a kv => a.add kv.2.steps) self.avg
  let next := insertAllA ([] : List (Nat × DoublePendulum)) nextA
  let f1 : PendulumFamily := { self with iter := iter, done := done, avg := avg }
  match f1.bootStage next with
  | none => none
  | some (f2, next2) =>
    let update_steps :=
      10 + qToUsize (expF (expF ((iter : ℚ) / self.config.speed_a) / self.config.speed_b))
    match f2.dive_all (stopped.map fun kv => kv.1) with
    | none => none
    | some (f4, diveNext) =>
      some { f4 with ps := insertAllA next2 diveNext, update_steps := update_steps }

/-- The physics fan-out of `PendulumFamily::update`: every active cell is
integrated exactly once with this generation's step counts, and the results
are merged into a map keyed by each cell's `id` field (worker completion
order is irrelevant to the merged map). -/
def PendulumFamily.physicsResults (sinF cosF : ℚ → ℚ) (self : PendulumFamily) :
    List (Nat × DoublePendulum) :=
  insertAllA [] (self.ps.map fun kv =>
    let p := kv.2.update sinF cosF self.update_steps self.config.max_step
    (p.id, p))

/-- `PendulumFamily::update`: one full generation. -/
def PendulumFamily.update (sinF cosF expF : ℚ → ℚ) (self : PendulumFamily) :
    Option PendulumFamily :=
  self.postPhysics expF (self.physicsResults sinF cosF)

/-!
NaN-transparent model, used only by the non-finite-state claim.  The ℚ
embedding above has no non-finite values, so the divergence claim is stated
over a second embedding of the two integrators in which every `f64`
dynamical quantity is an `Option ℚ` and `none` stands for a non-finite
value: arithmetic propagates `none` (as NaN propagates), every comparison
with `none` is false (as every comparison with NaN is), and `is_nan` is
`isNone`.  (Division by zero, whose f64 result is non-finite, also yields
`none`; no statement below depends on that corner.)
-/

namespace NanModel

/-- NaN-propagating addition. -/
def fAdd : Option ℚ → Option ℚ → Option ℚ
  | some a, some b => some (a + b)
  | _, _ => none

/-- NaN-propagating subtraction. -/
def fSub : Option ℚ → Option ℚ → Option ℚ
  | some a, some b => some (a - b)
  | _, _ => none

/-- NaN-propagating multiplication. -/
def fMul : Option ℚ → Option ℚ → Option ℚ
  | some a, some b => some (a * b)
  | _, _ => none

/-- NaN-propagating division (a zero divisor's non-finite f64 result is
collapsed into `none`). -/
def fDiv : Option ℚ → Option ℚ → Option ℚ
  | some a, some b => if b = 0 then none else some (a / b)
  | _, _ => none

/-- NaN-propagating negation. -/
def fNeg : Option ℚ → Option ℚ
  | some a => some (-a)
  | none => none

/-- `<` on f64: false whenever either side is NaN. -/
def fLt (a b : Option ℚ) : Bool :=
  match a, b with
  | some a, some b => decide (a < b)
  | _, _ => false

/-- `p2.rs` `DoublePendulum` (the grid variant): the dynamical state over
NaN-transparent numbers.  The `color` field is omitted (rendering only). -/
structure P2Pendulum where
  id : Nat
  px : ℚ
  py : ℚ
  theta1 : Option ℚ
  theta2 : Option ℚ
  l1 : Option ℚ
  l2 : Option ℚ
  dt1 : Option ℚ
  dt2 : Option ℚ
  d2t1 : Option ℚ
  d2t2 : Option ℚ
  scale : ℚ
  steps : Nat
deriving DecidableEq, Repr

/-- The two angular accelerations computed at the top of `p2.rs`'s `step`
(identical formulas to `pendulum.rs`). -/
def p2accel (sinF cosF : Option ℚ → Option ℚ) (s : P2Pendulum) :
    Option ℚ × Option ℚ :=
  let a := fSub (fAdd (fMul (some 2) s.l1) s.l2)
    (fMul s.l2 (cosF (fSub (fMul (some 2) s.theta1) (fMul (some 2) s.theta2))))
  let d2t1 := fDiv
    (fSub
      (fSub (fMul (fMul (fNeg (some gravC)) (fAdd (fMul (some 2) s.l1) s.l2)) (sinF s.theta1))
        (fMul (fMul s.l2 (some gravC)) (sinF (fSub s.theta1 (fMul (some 2) s.theta2)))))
      (fMul (fMul (fMul (some 2) (sinF (fSub s.theta1 s.theta2))) s.l2)
        (fSub (fMul (fMul s.dt2 s.dt2) s.l2)
          (fMul (fMul (fMul s.dt1 s.dt1) s.l1) (cosF (fSub s.theta1 s.theta2))))))
    (fMul s.l1 a)
  let d2t2 := fDiv
    (fMul (fMul (some 2) (sinF (fSub s.theta1 s.theta2)))
      (fAdd (fAdd (fMul (fMul (fMul s.dt1 s.dt1) s.l1) (fAdd s.l1 s.l2))
          (fMul (fMul (some gravC) (fAdd s.l1 s.l2)) (cosF s.theta1)))
        (fMul (fMul (fMul s.dt2 s.dt2) (fMul s.l2 s.l2)) (cosF (fSub s.theta1 s.theta2)))))
    (fMul s.l2 a)
  (d2t1, d2t2)

/-- `p2.rs` `DoublePendulum::step`: count the step, compute the
accelerations, and — before applying the Euler update — panic (modelled as
`Except.error` carrying exactly the eight values the source prints: l1, l2,
θ1, dθ1, d²θ1, θ2, dθ2, d²θ2, and no cell id) whenever any of the six
checked values is NaN; otherwise apply the semi-implicit Euler update. -/
def P2Pendulum.step (sinF cosF : Option ℚ → Option ℚ) (delta : ℚ)
    (self : P2Pendulum) : Except (List (Option ℚ)) P2Pendulum :=
  let self := { self with steps := self.steps + 1 }
  let acc := p2accel sinF cosF self
  let d2t1 := acc.1
  let d2t2 := acc.2
  if d2t1.isNone || self.dt1.isNone || self.theta1.isNone
      || d2t2.isNone || self.dt2.isNone || self.theta2.isNone then
    Except.error [self.l1, self.l2, self.theta1, self.dt1, d2t1,
      self.theta2, self.dt2, d2t2]
  else
    let dt1 := fAdd self.dt1 (fMul d2t1 (some delta))
    let dt2 := fAdd self.dt2 (fMul d2t2 (some delta))
    let theta1 := fAdd self.theta1 (fMul dt1 (some delta))
    let theta2 := fAdd self.theta2 (fMul dt2 (some delta))
    Except.ok
      { self with
        d2t1 := d2t1, d2t2 := d2t2, dt1 := dt1, dt2 := dt2,
        theta1 := theta1, theta2 := theta2 }

/-- `pendulum.rs` `DoublePendulum` over NaN-transparent numbers (only the
fields read or written by `step`; `prev` is `f64`, so here it is a plain
NaN-transparent value whose `is_finite()` is `isSome`). -/
structure FPendulum where
  id : Nat
  theta1 : Option ℚ
  theta2 : Option ℚ
  l1 : Option ℚ
  l2 : Option ℚ
  dt1 : Option ℚ
  dt2 : Option ℚ
  d2t1 : Option ℚ
  d2t2 : Option ℚ
  stopped : Bool
  steps : Nat
  prev : Option ℚ
  expired : Bool
deriving DecidableEq, Repr

/-- `pendulum.rs` `DoublePendulum::step` over NaN-transparent numbers: the
same function as `DoublePendulum.step` above, re-embedded so that non-finite
states are representable.  It has no check and no failure path: a NaN state
flows through the arithmetic (and disables the flip detector, since every
NaN comparison is false). -/
def FPendulum.step (sinF cosF : Option ℚ → Option ℚ) (delta : ℚ)
    (max_step : Nat) (self : FPendulum) : FPendulum :=
  if self.stopped then self
  else if max_step ≤ self.steps then { self with stopped := true, expired := true }
  else
    let self := { self with steps := self.steps + 1 }
    let a := fSub (fAdd (fMul (some 2) self.l1) self.l2)
      (fMul self.l2 (cosF (fSub (fMul (some 2) self.theta1) (fMul (some 2) self.theta2))))
    let d2t1 := fDiv
      (fSub
        (fSub (fMul (fMul (fNeg (some gravC)) (fAdd (fMul (some 2) self.l1) self.l2)) (sinF self.theta1))
          (fMul (fMul self.l2 (some gravC)) (sinF (fSub self.theta1 (fMul (some 2) self.theta2)))))
        (fMul (fMul (fMul (some 2) (sinF (fSub self.theta1 self.theta2))) self.l2)
          (fSub (fMul (fMul self.dt2 self.dt2) self.l2)
            (fMul (fMul (fMul self.dt1 self.dt1) self.l1) (cosF (fSub self.theta1 self.theta2))))))
      (fMul self.l1 a)
    let d2t2 := fDiv
      (fMul (fMul (some 2) (sinF (fSub self.theta1 self.theta2)))
        (fAdd (fAdd (fMul (fMul (fMul self.dt1 self.dt1) self.l1) (fAdd self.l1 self.l2))
            (fMul (fMul (some gravC) (fAdd self.l1 self.l2)) (cosF self.theta1)))
          (fMul (fMul (fMul self.dt2 self.dt2) (fMul self.l2 self.l2)) (cosF (fSub self.theta1 self.theta2)))))
      (fMul self.l2 a)
    let dt1 := fAdd self.dt1 (fMul d2t1 (some delta))
    let dt2 := fAdd self.dt2 (fMul d2t2 (some delta))
    let theta1 := fAdd self.theta1 (fMul dt1 (some delta))
    let theta2 := fAdd self.theta2 (fMul dt2 (some delta))
    let fired : Bool :=
      match self.prev with
      | none => false
      | some prev =>
        (fLt (some 0) dt2
            && ((fLt theta2 (some (-piQ)) && decide (prev > -piQ))
              || (fLt (some piQ) theta2 && decide (prev < piQ))))
          || (fLt dt2 (some 0)
            && ((fLt theta2 (some (-piQ)) && decide (prev > -piQ))
              || (fLt theta2 (some piQ) && decide (prev > piQ))))
    { self with
      d2t1 := d2t1, d2t2 := d2t2, dt1 := dt1, dt2 := dt2,
      theta1 := theta1, theta2 := theta2,
      stopped := fired, prev := theta2 }

/-- `pendulum.rs`'s `step` seen through the same error type as the `p2.rs`
variant: the source function has no panic, assertion, check or any other
failure path, so its image in `Except` is always `Except.ok`. -/
def FPendulum.stepE (sinF cosF : Option ℚ → Option ℚ) (delta : ℚ)
    (max_step : Nat) (self : FPendulum) : Except (List (Option ℚ)) FPendulum :=
  Except.ok (self.step sinF cosF delta max_step)

end NanModel

/-- The configuration `main.rs` actually constructs (the active, uncommented
one).  `xmax`/`ymax` are `TAU`/`PI` (exact binary64 values); `dive_diff`
is the rational denoted by `0.82` (no statement below depends on its
final-ulp rounding). -/
def cfgMain : Config :=
  { xmin := 0, xmax := 2 * piQ, ymin := 0, ymax := piQ,
    color_step := 100, color_mod := 6000, dive_diff := 41 / 50,
    max_step := 460000, min_pixel := 4, speed_a := 550, speed_b := 20 }

/-- The root cell `main.rs` seeds: anchor at the domain center, scale 1. -/
def rootCell : DoublePendulum := DoublePendulum.new2 1024 1024 2048 1 cfgMain

/-- The root cell once stopped (as the bootstrap rule forces it). -/
def rootStopped : DoublePendulum := { rootCell with id := 1, stopped := true, steps := 5 }

/-- A cell whose footprint width is exactly the configured minimum (4):
scale `1/256` of the root geometry. -/
def atMinCell : DoublePendulum :=
  { DoublePendulum.new2 1024 1024 2048 (1 / 256) cfgMain with stopped := true }

/-- A tiny stopped cell strictly below the minimum footprint width. -/
def belowMinCell : DoublePendulum :=
  { DoublePendulum.new2 1024 1024 2048 (1 / 4096) cfgMain with stopped := true }

/-- A done cell recording child id 2 while no cell 2 exists in `done`. -/
def orphanParent : DoublePendulum :=
  { rootStopped with childs := [2] }

/-- A family whose `done` set holds only `orphanParent`. -/
def orphanFamily : PendulumFamily :=
  { config := cfgMain, width := 2048, ps := [], done := [(1, orphanParent)],
    diveSet := [], counter := 7, iter := 3, update_steps := 100,
    avg := RollingAverage.new 1000 }

/-- Cell `A` of the adjacency witness: footprint width 512, anchored at
`(512, 512)`. -/
def adjCellA : DoublePendulum :=
  { DoublePendulum.new2 512 512 2048 (1 / 2) cfgMain with id := 1 }

/-- Cell `B`: same width, anchored exactly one full side length below `A`
(shared horizontal edge). -/
def adjCellB : DoublePendulum :=
  { DoublePendulum.new2 512 1536 2048 (1 / 2) cfgMain with id := 2 }

/-- Cell `C`: cell `B` offset one further pixel away (offset `1 > 0.1`). -/
def adjCellC : DoublePendulum :=
  { adjCellB with py := 1537 }

/-- A one-cell family used to exercise `find_all`. -/
def pickFamily : PendulumFamily :=
  { config := cfgMain, width := 2048, ps := [(1, { rootCell with id := 1 })],
    done := [], diveSet := [], counter := 1, iter := 0, update_steps := 100,
    avg := RollingAverage.new 1000 }

/-- The "every done cell is stopped" property of a cell map, the family
invariant that the stopped-flag monotonicity claim is stated with. -/
def StoppedMap (m : List (Nat × DoublePendulum)) : Prop :=
  ∀ k q, lookupA m k = some q → q.stopped = true

/-- A family with no cells, used to exercise the family update at a
concrete input. -/
def emptyFam : PendulumFamily :=
  { config := cfgMain, width := 2048, ps := [], done := [], diveSet := [],
    counter := 0, iter := 0, update_steps := 100, avg := RollingAverage.new 1000 }

/-- A `pendulum.rs`-integrator state (NaN-transparent model) whose θ1 is
already NaN while the cell is still active. -/
def nanCell : NanModel.FPendulum :=
  { id := 1, theta1 := none, theta2 := some 0, l1 := some 80, l2 := some 80,
    dt1 := some 0, dt2 := some 0, d2t1 := some 0, d2t2 := some 0,
    stopped := false, steps := 0, prev := none, expired := false }

/-- A `p2.rs`-integrator state whose θ1 is NaN. -/
def p2NanCell : NanModel.P2Pendulum :=
  { id := 1, px := 0, py := 0, theta1 := none, theta2 := some 0,
    l1 := some 80, l2 := some 80, dt1 := some 0, dt2 := some 0,
    d2t1 := some 0, d2t2 := some 0, scale := 1, steps := 0 }

/-- A family mid-run whose only cell is the stopped root, exercising the
bootstrap rule: no active cells, one done cell after classification. -/
def bootFam : PendulumFamily :=
  { config := cfgMain, width := 2048, ps := [], done := [], diveSet := [],
    counter := 1, iter := 3, update_steps := 100, avg := RollingAverage.new 1000 }

/-- "Every entry records a cell whose `id` field is its key" — the map
well-formedness the program maintains (cells are always inserted under
their own id).  Used as a hypothesis of the neighbor-repair
characterization. -/
def WellKeyed (m : List (Nat × DoublePendulum)) : Prop :=
  ∀ k q, lookupA m k = some q → q.id = k

/-- The lookup order of `update_neighbors`'s
`self.done.get_mut(nid).or(self.ps.get_mut(nid))`: `done` first, falling
back to `ps`. -/
def lookupDP (done ps : List (Nat × DoublePendulum)) (nid : Nat) :
    Option DoublePendulum :=
  match lookupA done nid with
  | some q => some q
  | none => lookupA ps nid

/-- Whether a former neighbor id `nid` of the parent gets linked to child
`c` during neighbor repair: it is not the parent itself, it is found in
`done` or (falling back) in the active map, and the found cell is
geometrically adjacent to `c`.  Statement vocabulary for the
`update_neighbors` characterization. -/
def qualB (done ps : List (Nat × DoublePendulum)) (parent_id : Nat)
    (c : DoublePendulum) (nid : Nat) : Bool :=
  if nid = parent_id then false
  else
    match lookupDP done ps nid with
    | some q => c.adjacent q
    | none => false

/-- The ids `update_neighbors` assigns to `n` children when the counter
starts at `counter`: `counter+1, …, counter+n`.  Statement vocabulary. -/
def childIds : Nat → Nat → List Nat
  | _, 0 => []
  | counter, n + 1 => (counter + 1) :: childIds (counter + 1) n

/-- The ids of the new children that the repair links to former neighbor
`k` (the reverse edges pushed onto `k`'s map entry), in child order.
Statement vocabulary for the `update_neighbors` characterization. -/
def linkIds (done ps : List (Nat × DoublePendulum)) (pid : Nat) :
    List DoublePendulum → Nat → Nat → List Nat
  | [], _, _ => []
  | ch :: rest, counter, k =>
    (if qualB done ps pid ch k then [counter + 1] else [])
      ++ linkIds done ps pid rest (counter + 1) k

/-- The children as `update_neighbors` returns them, before the final
append of the sibling-id block: fresh id, parent id, and the qualifying
former neighbors of the parent.  Statement vocabulary. -/
def repairedChilds (done ps : List (Nat × DoublePendulum))
    (pid pfid : Nat) (pNbs : List Nat) :
    List DoublePendulum → Nat → List DoublePendulum
  | [], _ => []
  | ch :: rest, counter =>
    { ch with
      id := counter + 1
      parent_id := pfid
      neighbors := ch.neighbors ++ pNbs.filter (qualB done ps pid ch) }
      :: repairedChilds done ps pid pfid pNbs rest (counter + 1)

/-- The full characterization of one `unInner` run (one child `c` against
the parent's former neighbor list `nbs`): the child gains exactly the
qualifying ids, a done-resident neighbor's entry gains the child's id,
an active-map neighbor's entry gains it in the (possibly stale) active
map, and entries shadowed by `done` are untouched in `ps`. -/
@[reducible]
def UnInnerOut (pid : Nat) (c : DoublePendulum)
    (done ps : List (Nat × DoublePendulum)) (nbs : List Nat)
    (out : DoublePendulum × List (Nat × DoublePendulum) × List (Nat × DoublePendulum)) :
    Prop :=
  (out.1 = { c with neighbors := c.neighbors ++ nbs.filter (qualB done ps pid c) })
  ∧ (∀ k, lookupA out.2.1 k = (lookupA done k).map fun q =>
      if k ∈ nbs ∧ qualB done ps pid c k = true then
        { q with neighbors := q.neighbors ++ [c.id] }
      else q)
  ∧ (∀ k, lookupA done k = none →
      lookupA out.2.2 k = (lookupA ps k).map fun q =>
        if k ∈ nbs ∧ qualB done ps pid c k = true then
          { q with neighbors := q.neighbors ++ [c.id] }
        else q)
  ∧ (∀ k q, lookupA done k = some q → lookupA out.2.2 k = lookupA ps k)

/-- The parent cell of the neighbor-repair counterexample: a cell of
half-side 256 anchored at `(256, 256)` that stops this generation, whose
neighbor list holds the still-active cell 2 and the done cell 3. -/
def cex5P : DoublePendulum :=
  { DoublePendulum.new2 256 256 2048 (1 / 4) cfgMain with
      id := 1, stopped := true, steps := 100, neighbors := [2, 3] }

/-- The still-active neighbor (id 2) of the counterexample: half-side 64,
anchored at `(576, 384)`, sharing an edge with the `(384, 384)` child of
`cex5P`. -/
def cex5Act : DoublePendulum :=
  { DoublePendulum.new2 576 384 2048 (1 / 16) cfgMain with
      id := 2, steps := 50, neighbors := [1] }

/-- The done neighbor (id 3) of the counterexample: a tiny stopped cell
(half-side 2, below `min_pixel`) at `(514, 256)`, sharing an edge with
`cex5P` and far behind it in steps, so the divergence scan fires. -/
def cex5Done3 : DoublePendulum :=
  { DoublePendulum.new2 514 256 2048 (1 / 512) cfgMain with
      id := 3, stopped := true, steps := 10, neighbors := [1] }

/-- The counterexample family before the generation: cells 1 and 2 active,
cell 3 done. -/
def cex5Fam : PendulumFamily :=
  { config := cfgMain, width := 2048,
    ps := [(1, { cex5P with stopped := false, steps := 90 }), (2, cex5Act)],
    done := [(3, cex5Done3)], diveSet := [], counter := 3, iter := 5,
    update_steps := 100, avg := RollingAverage.new 1000 }

/-- The counterexample generation's worker results: cell 1 stopped at 100
steps, cell 2 still active at 150 steps. -/
def cex5Res : List (Nat × DoublePendulum) :=
  [(1, cex5P), (2, { cex5Act with steps := 150 })]

/-- The parent of the neighbor-repair witness instance (no former
neighbors). -/
def witPar : DoublePendulum := rootStopped

/-- A family whose `done` holds only `witPar`, for the repair witness. -/
def witFam : PendulumFamily :=
  { config := cfgMain, width := 2048, ps := [], done := [(1, witPar)],
    diveSet := [], counter := 5, iter := 2, update_steps := 100,
    avg := RollingAverage.new 1000 }

/-- A fresh child handed to the repair witness. -/
def witChild : DoublePendulum := DoublePendulum.new2 512 512 2048 (1 / 2) cfgMain

/-- Two still-active worker results for the discard witness. -/
def witActA : DoublePendulum := { rootCell with id := 1 }

/-- Second still-active worker result for the discard witness. -/
def witActB : DoublePendulum := { rootCell with id := 2 }

/-- The family of the discard witness. -/
def witFam2 : PendulumFamily :=
  { config := cfgMain, width := 2048, ps := [(1, witActA), (2, witActB)],
    done := [], diveSet := [], counter := 2, iter := 0, update_steps := 100,
    avg := RollingAverage.new 1000 }

/-- The discard witness's worker results: both cells still active. -/
def witRes2 : List (Nat × DoublePendulum) := [(1, witActA), (2, witActB)]

-- ===== Theorems =====

theorem lookupA_insertA {α : Type} (m : List (Nat × α)) (k : Nat) (v : α)
    (j : Nat) :
    lookupA (insertA m k v) j = if j = k then some v else lookupA m j := by
  induction m with
  | nil =>
    simp only [insertA, lookupA]
    by_cases h : j = k
    · subst h; simp
    · rw [if_neg (fun hh : k = j => h hh.symm), if_neg h]
  | cons kv rest ih =>
    obtain ⟨a, b⟩ := kv
    by_cases hak : a = k
    · subst hak
      simp only [insertA, if_pos rfl, lookupA]
      by_cases hja : a = j
      · subst hja; simp
      · rw [if_neg hja, if_neg hja, if_neg (fun hh : j = a => hja hh.symm)]
    · simp only [insertA, if_neg hak, lookupA, ih]
      by_cases hja : a = j
      · subst hja
        rw [if_pos rfl, if_neg hak, if_pos rfl]
      · rw [if_neg hja]
        by_cases hjk : j = k
        · simp [hjk]
        · rw [if_neg hjk, if_neg hjk, if_neg hja]

theorem lookupA_modifyA {α : Type} (m : List (Nat × α)) (k : Nat)
    (g : α → α) (j : Nat) :
    lookupA (modifyA m k g) j =
      if j = k then (lookupA m k).map g else lookupA m j := by
  induction m with
  | nil =>
    simp only [modifyA, lookupA]
    by_cases h : j = k <;> simp [h]
  | cons kv rest ih =>
    obtain ⟨a, b⟩ := kv
    by_cases hak : a = k
    · subst hak
      simp only [modifyA, if_pos rfl, lookupA]
      by_cases hja : a = j
      · subst hja; simp
      · rw [if_neg hja, if_neg hja, if_neg (fun hh : j = a => hja hh.symm)]
    · simp only [modifyA, if_neg hak, lookupA, ih]
      by_cases hja : a = j
      · subst hja
        rw [if_pos rfl, if_neg hak, if_pos rfl]
      · rw [if_neg hja]
        by_cases hjk : j = k
        · simp [hjk, lookupA, if_neg hja]
        · rw [if_neg hjk, if_neg hjk, if_neg hja]

theorem mem_insertLe {α : Type} (le : α → α → Bool) (x a : α) (l : List α) :
    a ∈ insertLe le x l ↔ a = x ∨ a ∈ l := by
  induction l with
  | nil => simp [insertLe]
  | cons y ys ih =>
    by_cases h : le x y = true
    · simp [insertLe, h]
    · simp only [insertLe, if_neg h, List.mem_cons, ih]
      tauto

theorem mem_sortLe {α : Type} (le : α → α → Bool) (a : α) (l : List α) :
    a ∈ sortLe le l ↔ a ∈ l := by
  induction l with
  | nil => simp [sortLe]
  | cons y ys ih => simp [sortLe, mem_insertLe, ih]

theorem new2_width (x y w s : ℚ) (config : Config) :
    (DoublePendulum.new2 x y w s config).width = w / 2 * s := by
  show (w / 4 * 1 + w / 4 * 1) * s = w / 2 * s
  ring

theorem addAll_window (vals : List Nat) : ∀ (r : RollingAverage),
    r.hist.length ≤ r.size → r.sum = r.hist.sum →
    (r.addAll vals).hist =
        (r.hist ++ vals).drop ((r.hist.length + vals.length) - r.size)
      ∧ (r.addAll vals).sum = (r.addAll vals).hist.sum
      ∧ (r.addAll vals).size = r.size := by
  induction vals with
  | nil =>
    intro r h1 h2
    refine ⟨?_, h2, rfl⟩
    simp [RollingAverage.addAll, Nat.sub_eq_zero_of_le h1]
  | cons v vs ih =>
    intro r h1 h2
    have hstep : r.addAll (v :: vs) = (r.add v).addAll vs := rfl
    rcases Nat.lt_or_ge r.hist.length r.size with hlt | hge
    · have hcond : ¬ r.size < r.hist.length + 1 := by omega
      have hadd : r.add v = { r with hist := r.hist ++ [v], sum := r.sum + v } := by
        simp [RollingAverage.add, hcond]
      have h1' : (r.hist ++ [v]).length ≤ r.size := by
        simp only [List.length_append, List.length_singleton]; omega
      have h2' : r.sum + v = (r.hist ++ [v]).sum := by
        simp [h2]
      obtain ⟨ha, hb, hc⟩ := ih { r with hist := r.hist ++ [v], sum := r.sum + v } h1' h2'
      dsimp only at ha
      rw [hstep, hadd]
      refine ⟨?_, hb, hc⟩
      rw [ha, List.append_assoc, List.singleton_append,
        show (r.hist ++ [v]).length + vs.length - r.size
            = r.hist.length + (v :: vs).length - r.size by
          simp only [List.length_append, List.length_cons, List.length_nil]
          omega]
    · have heq : r.hist.length = r.size := le_antisymm h1 hge
      obtain ⟨h, t, hht⟩ : ∃ h t, r.hist ++ [v] = h :: t := by
        cases hh : r.hist ++ [v] with
        | nil => exact absurd hh (by simp)
        | cons x xs => exact ⟨x, xs, rfl⟩
      have hlen_ht : r.hist.length + 1 = t.length + 1 := by
        have := congrArg List.length hht
        simpa using this
      have hcond' : r.size < (h :: t).length := by
        simp only [List.length_cons]; omega
      have hsum3 : r.sum + v - (h :: t).headD 0 = t.sum := by
        have hs : r.sum + v = (h :: t).sum := by rw [← hht]; simp [h2]
        simp only [List.sum_cons] at hs
        simp only [List.headD_cons]
        omega
      have hadd : r.add v = { r with hist := t, sum := t.sum } := by
        simp only [RollingAverage.add, hht, List.tail_cons, if_pos hcond', hsum3]
      have hlen_t : t.length = r.size := by omega
      obtain ⟨ha, hb, hc⟩ := ih { r with hist := t, sum := t.sum } (le_of_eq hlen_t) rfl
      dsimp only at ha
      rw [hstep, hadd]
      refine ⟨?_, hb, hc⟩
      rw [ha]
      have hl2 : r.hist ++ v :: vs = h :: (t ++ vs) := by
        rw [← List.singleton_append, ← List.append_assoc, hht]
        simp
      rw [hl2, hlen_t]
      rw [show r.size + vs.length - r.size = vs.length by omega]
      rw [show r.hist.length + (v :: vs).length - r.size = vs.length + 1 by
        simp only [List.length_cons]; omega]
      simp [List.drop_succ_cons]

/-- C9 (amended): `RollingAverage` keeps exactly the most recent `size`
samples; `add` maintains the running sum of the window; `get` is `0` on an
empty window and otherwise the *truncating* (`u32`) quotient of the window
sum by the window length — the floor of the arithmetic mean, not the exact
mean; after adding 10, 20, 30 to a window of capacity 2 `get()` is 25. -/
theorem rolling_average_spec :
    (∀ (n : Nat) (vals : List Nat),
        ((RollingAverage.new n).addAll vals).hist = vals.drop (vals.length - n))
  ∧ (∀ (n : Nat) (vals : List Nat),
        ((RollingAverage.new n).addAll vals).get =
          (vals.drop (vals.length - n)).sum / (vals.drop (vals.length - n)).length)
  ∧ (∀ n : Nat, (RollingAverage.new n).get = 0)
  ∧ ((RollingAverage.new 2).addAll [10, 20, 30]).get = 25 := by
  have key : ∀ (n : Nat) (vals : List Nat),
      ((RollingAverage.new n).addAll vals).hist = vals.drop (vals.length - n) ∧
      ((RollingAverage.new n).addAll vals).sum =
        ((RollingAverage.new n).addAll vals).hist.sum := by
    intro n vals
    obtain ⟨ha, hb, _⟩ := addAll_window vals (RollingAverage.new n)
      (by simp [RollingAverage.new]) (by simp [RollingAverage.new])
    constructor
    · rw [ha]; simp [RollingAverage.new]
    · exact hb
  refine ⟨fun n vals => (key n vals).1, ?_, ?_, by decide⟩
  · intro n vals
    obtain ⟨ha, hb⟩ := key n vals
    rw [RollingAverage.get, hb, ha]
    by_cases h : (vals.drop (vals.length - n)).length = 0
    · simp [h]
    · rw [if_neg h]
  · intro n
    simp [RollingAverage.new, RollingAverage.get]

/-- C9 counterexample: with the program's `u32` instantiation, `get` is not
the arithmetic mean of the window — after adding 10 and 21 to a window of
capacity 2 the window is `[10, 21]`, the exact mean is `31 / 2 = 15.5`, but
`get()` returns the truncated `15`. -/
theorem rolling_average_mean_counterexample :
    ((RollingAverage.new 2).addAll [10, 21]).get = 15
  ∧ (((RollingAverage.new 2).addAll [10, 21]).hist.sum : ℚ) /
      (((RollingAverage.new 2).addAll [10, 21]).hist.length : ℚ) = 31 / 2
  ∧ (15 : ℚ) ≠ 31 / 2 := by
  refine ⟨by decide, ?_, by norm_num⟩
  have h : ((RollingAverage.new 2).addAll [10, 21]).hist = [10, 21] := by decide
  rw [h]
  norm_num

/-- C8: `adjacent` is symmetric for every pair of cells.  Moreover two cells
of non-negative combined width aligned on the x axis and exactly one
combined half-width sum apart on the y axis (a shared horizontal edge; for
equal-width cells, an edge of equal width) are mutually adjacent; displacing
the second cell further by any offset exceeding the `0.1` epsilon makes
`adjacent` false in both directions. -/
theorem adjacent_spec :
    (∀ a b : DoublePendulum, a.adjacent b = b.adjacent a)
  ∧ (∀ a b : DoublePendulum, 0 ≤ a.width + b.width → a.px = b.px →
      b.py = a.py + (a.width + b.width) →
      a.adjacent b = true ∧ b.adjacent a = true)
  ∧ (∀ (a b : DoublePendulum) (d : ℚ), 0 ≤ a.width + b.width →
      epsilonAdj < d → a.px = b.px →
      b.py = a.py + (a.width + b.width) + d →
      a.adjacent b = false ∧ b.adjacent a = false) := by
  have heps : (0 : ℚ) < epsilonAdj := by norm_num [epsilonAdj]
  have hsym : ∀ a b : DoublePendulum, a.adjacent b = b.adjacent a := by
    intro a b
    simp only [DoublePendulum.adjacent]
    rw [decide_eq_decide, abs_sub_comm a.px b.px, abs_sub_comm a.py b.py,
      add_comm a.width b.width]
  have hadj : ∀ a b : DoublePendulum, 0 ≤ a.width + b.width → a.px = b.px →
      b.py = a.py + (a.width + b.width) → a.adjacent b = true := by
    intro a b hw hx hy
    have hdx : |a.px - b.px| = 0 := by rw [hx]; simp
    have hdy : |a.py - b.py| = a.width + b.width := by
      rw [hy, show a.py - (a.py + (a.width + b.width)) = -(a.width + b.width) by ring,
        abs_neg, abs_of_nonneg hw]
    simp only [DoublePendulum.adjacent, decide_eq_true_eq]
    left
    rw [hdx, hdy, sub_self, abs_zero]
    exact ⟨hw, heps⟩
  have hnadj : ∀ (a b : DoublePendulum) (d : ℚ), 0 ≤ a.width + b.width →
      epsilonAdj < d → a.px = b.px →
      b.py = a.py + (a.width + b.width) + d → a.adjacent b = false := by
    intro a b d hw hd hx hy
    have hdy : |a.py - b.py| = a.width + b.width + d := by
      rw [hy, show a.py - (a.py + (a.width + b.width) + d)
          = -(a.width + b.width + d) by ring, abs_neg,
        abs_of_nonneg (by linarith)]
    simp only [DoublePendulum.adjacent, decide_eq_false_iff_not]
    intro hcon
    rcases hcon with ⟨_, h2⟩ | ⟨h1, _⟩
    · rw [hdy, show a.width + b.width + d - (a.width + b.width) = d by ring,
        abs_of_nonneg (by linarith)] at h2
      linarith
    · rw [hdy] at h1
      linarith
  refine ⟨hsym, fun a b h1 h2 h3 => ⟨hadj a b h1 h2 h3, ?_⟩,
    fun a b d h1 h2 h3 h4 => ⟨hnadj a b d h1 h2 h3 h4, ?_⟩⟩
  · rw [hsym b a]; exact hadj a b h1 h2 h3
  · rw [hsym b a]; exact hnadj a b d h1 h2 h3 h4

/-- C8 witness: the two concrete width-512 cells sharing a horizontal edge
are mutually adjacent; the copy offset one further pixel (1 > 0.1) is
adjacent to neither, in either direction. -/
theorem adjacent_spec_witness :
    (adjCellA.adjacent adjCellB = true ∧ adjCellB.adjacent adjCellA = true)
  ∧ (adjCellA.adjacent adjCellC = false ∧ adjCellC.adjacent adjCellA = false) := by
  have hwA : adjCellA.width = 512 := by
    norm_num [adjCellA, DoublePendulum.new2, DoublePendulum.new, DoublePendulum.width]
  have hwB : adjCellB.width = 512 := by
    norm_num [adjCellB, DoublePendulum.new2, DoublePendulum.new, DoublePendulum.width]
  have hwC : adjCellC.width = 512 := by
    norm_num [adjCellC, adjCellB, DoublePendulum.new2, DoublePendulum.new,
      DoublePendulum.width]
  constructor
  · exact adjacent_spec.2.1 adjCellA adjCellB (by rw [hwA, hwB]; norm_num) rfl
      (by rw [hwA, hwB]; norm_num [adjCellA, adjCellB, DoublePendulum.new2,
        DoublePendulum.new])
  · exact adjacent_spec.2.2 adjCellA adjCellC 1 (by rw [hwA, hwC]; norm_num)
      (by norm_num [epsilonAdj]) rfl
      (by rw [hwA, hwC]; norm_num [adjCellA, adjCellC, adjCellB,
        DoublePendulum.new2, DoublePendulum.new])

/-- C4 (amended): only a cell whose footprint width is *strictly* below the
configured minimum is exempt from subdivision — `split` then returns the
empty list and leaves the cell (besides its untouched `childs`) unchanged. -/
theorem split_below_min (p : DoublePendulum) (width min_pixel : ℚ)
    (config : Config) (hstop : p.stopped = true) (hlt : p.width < min_pixel) :
    p.split width min_pixel config = some (p, []) := by
  simp [DoublePendulum.split, hstop, hlt]

/-- C4 witness: the concrete stopped cell of footprint width 1/4 < 4
produces no children. -/
theorem split_below_min_witness :
    belowMinCell.split 2048 cfgMain.min_pixel cfgMain = some (belowMinCell, []) :=
  split_below_min belowMinCell 2048 cfgMain.min_pixel cfgMain rfl
    (by norm_num [belowMinCell, cfgMain, DoublePendulum.new2, DoublePendulum.new,
      DoublePendulum.width])

/-- C4 counterexample: a stopped cell whose footprint width *equals* the
configured minimum (4) is still subdivided — `split` returns four children,
not the empty list, because the source's exemption test is the strict
`self.width() < min_pixel`. -/
theorem split_at_min_counterexample :
    atMinCell.width = cfgMain.min_pixel
  ∧ (atMinCell.split 2048 cfgMain.min_pixel cfgMain).map (fun r => r.2.length)
      = some 4 := by
  constructor
  · norm_num [atMinCell, cfgMain, DoublePendulum.new2, DoublePendulum.new,
      DoublePendulum.width]
  · norm_num [atMinCell, cfgMain, DoublePendulum.split, DoublePendulum.new2,
      DoublePendulum.new, DoublePendulum.width]

theorem mem_condAppend {α : Type} {P : Prop} [Decidable P] {l : List α}
    {x c : α} (hc : c ∈ (if P then l ++ [x] else l)) : c ∈ l ∨ (P ∧ c = x) := by
  by_cases h : P
  · rw [if_pos h] at hc
    rcases List.mem_append.mp hc with h1 | h1
    · exact Or.inl h1
    · exact Or.inr ⟨h, List.mem_singleton.mp h1⟩
  · rw [if_neg h] at hc
    exact Or.inl hc

theorem new2_px (x y w s : ℚ) (config : Config) :
    (DoublePendulum.new2 x y w s config).px = x := rfl

theorem new2_py (x y w s : ℚ) (config : Config) :
    (DoublePendulum.new2 x y w s config).py = y := rfl

/-- C3: splitting a stopped cell whose footprint width `W` is not below the
minimum, whose arms carry the `new2` derivation `l1 + l2 = width / 2` from
the domain width, and whose anchor lies inside the domain, produces at most
4 children, each of footprint width exactly `W / 2` (scale halved, same
`l1 + l2` derivation), and no child's anchor falls outside
`[0, domain_width]` on either axis. -/
theorem split_spec (p : DoublePendulum) (width min_pixel : ℚ) (config : Config)
    (hstop : p.stopped = true) (hmin : min_pixel ≤ p.width)
    (hl : p.l1 + p.l2 = width / 2) (hsc : 0 ≤ p.scale) (hw : 0 ≤ width)
    (hxl : 0 ≤ p.px) (hxu : p.px ≤ width) (hyl : 0 ≤ p.py) (hyu : p.py ≤ width) :
    ∃ p2 cs, p.split width min_pixel config = some (p2, cs)
      ∧ cs.length ≤ 4
      ∧ ∀ c ∈ cs, c.width = p.width / 2
          ∧ 0 ≤ c.px ∧ c.px ≤ width ∧ 0 ≤ c.py ∧ c.py ≤ width := by
  have hd0 : 0 ≤ p.width / 2 := by
    have h1 : 0 ≤ width / 2 * p.scale := mul_nonneg (by linarith) hsc
    have h2 : p.width = width / 2 * p.scale := by rw [DoublePendulum.width, hl]
    linarith
  have hcw : ∀ x y : ℚ,
      (DoublePendulum.new2 x y width (p.scale / 2) config).width = p.width / 2 := by
    intro x y
    rw [new2_width, DoublePendulum.width, hl]
    ring
  simp only [DoublePendulum.split]
  rw [if_neg (by simp [hstop]), if_neg (not_lt.mpr hmin)]
  refine ⟨_, _, rfl, ?_, ?_⟩
  · split_ifs <;> simp
  · intro c hc
    rcases mem_condAppend hc with hc | ⟨⟨h4a, h4b⟩, rfl⟩
    · rcases mem_condAppend hc with hc | ⟨⟨h3a, h3b⟩, rfl⟩
      · rcases mem_condAppend hc with hc | ⟨⟨h2a, h2b⟩, rfl⟩
        · rcases mem_condAppend hc with hc | ⟨⟨h1a, h1b⟩, rfl⟩
          · exact absurd hc (List.not_mem_nil c)
          · exact ⟨hcw _ _, by rw [new2_px]; linarith, by rw [new2_px]; linarith,
              by rw [new2_py]; linarith, by rw [new2_py]; linarith⟩
        · exact ⟨hcw _ _, by rw [new2_px]; linarith, by rw [new2_px]; linarith,
            by rw [new2_py]; linarith, by rw [new2_py]; linarith⟩
      · exact ⟨hcw _ _, by rw [new2_px]; linarith, by rw [new2_px]; linarith,
          by rw [new2_py]; linarith, by rw [new2_py]; linarith⟩
    · exact ⟨hcw _ _, by rw [new2_px]; linarith, by rw [new2_px]; linarith,
        by rw [new2_py]; linarith, by rw [new2_py]; linarith⟩

/-- C3 witness: the stopped root cell (width 1024 ≥ 4, centered anchor)
splits into at most 4 children of width 512 with anchors inside the
domain. -/
theorem split_spec_witness :
    ∃ p2 cs, rootStopped.split 2048 cfgMain.min_pixel cfgMain = some (p2, cs)
      ∧ cs.length ≤ 4
      ∧ ∀ c ∈ cs, c.width = rootStopped.width / 2
          ∧ 0 ≤ c.px ∧ c.px ≤ 2048 ∧ 0 ≤ c.py ∧ c.py ≤ 2048 :=
  split_spec rootStopped 2048 cfgMain.min_pixel cfgMain rfl
    (by norm_num [rootStopped, rootCell, cfgMain, DoublePendulum.new2,
      DoublePendulum.new, DoublePendulum.width])
    (by norm_num [rootStopped, rootCell, DoublePendulum.new2, DoublePendulum.new])
    (by norm_num [rootStopped, rootCell, DoublePendulum.new2, DoublePendulum.new])
    (by norm_num)
    (by norm_num [rootStopped, rootCell, DoublePendulum.new2, DoublePendulum.new])
    (by norm_num [rootStopped, rootCell, DoublePendulum.new2, DoublePendulum.new])
    (by norm_num [rootStopped, rootCell, DoublePendulum.new2, DoublePendulum.new])
    (by norm_num [rootStopped, rootCell, DoublePendulum.new2, DoublePendulum.new])

/-- C10: a point whose distance from a cell's anchor equals the half-side
`scale * (l1 + l2)` on either axis (a footprint-boundary point) is not
`point_inside` (the comparisons are strict); and every cell returned by the
pick query `find_all` strictly contains the queried point — so `find_all`
never returns a cell for a coordinate exactly on that cell's footprint
edge. -/
theorem point_on_edge_spec :
    (∀ (p : DoublePendulum) (x y : ℚ),
        |x - p.px| = p.width ∨ |y - p.py| = p.width →
        p.point_inside x y = false)
  ∧ (∀ (f : PendulumFamily) (x y : ℚ) (c : DoublePendulum),
        f.find_all x y = some c → c.point_inside x y = true) := by
  constructor
  · intro p x y h
    simp only [DoublePendulum.point_inside, decide_eq_false_iff_not]
    rintro ⟨h1, h2, h3, h4⟩
    rcases h with h | h
    · have hw0 : 0 ≤ p.width := h ▸ abs_nonneg _
      rcases (abs_eq hw0).mp h with h' | h' <;>
        rw [DoublePendulum.width] at h' <;> linarith
    · have hw0 : 0 ≤ p.width := h ▸ abs_nonneg _
      rcases (abs_eq hw0).mp h with h' | h' <;>
        rw [DoublePendulum.width] at h' <;> linarith
  · intro f x y c hfind
    simp only [PendulumFamily.find_all] at hfind
    rcases hs : sortLe pickLe
        (((f.done ++ f.ps).map fun kv => kv.2).filter
          fun q => q.point_inside x y) with _ | ⟨r, rs⟩
    · rw [hs] at hfind
      exact absurd hfind (by simp)
    · rw [hs] at hfind
      simp only [Option.some.injEq] at hfind
      subst hfind
      have hmem : r ∈ ((f.done ++ f.ps).map fun kv => kv.2).filter
          (fun q => q.point_inside x y) := by
        refine (mem_sortLe pickLe r _).mp ?_
        rw [hs]
        exact List.mem_cons_self r rs
      exact (List.mem_filter.mp hmem).2

/-- C10 witness: the point `(2048, 1024)` lies exactly on the root cell's
right footprint edge and is excluded; the interior point `(1000, 1000)` is
returned by the pick query on the one-cell family and is strictly inside the
returned cell. -/
theorem point_on_edge_witness :
    ({ rootCell with id := 1 } : DoublePendulum).point_inside 2048 1024 = false
  ∧ ({ rootCell with id := 1 } : DoublePendulum).point_inside 1000 1000 = true := by
  constructor
  · exact point_on_edge_spec.1 _ 2048 1024
      (Or.inl (by norm_num [rootCell, DoublePendulum.new2, DoublePendulum.new,
        DoublePendulum.width]))
  · refine point_on_edge_spec.2 pickFamily 1000 1000 _ ?_
    show pickFamily.find_all 1000 1000 = some { rootCell with id := 1 }
    have hin : ({ rootCell with id := 1 } : DoublePendulum).point_inside 1000 1000
        = true := by
      simp only [DoublePendulum.point_inside, decide_eq_true_eq]
      norm_num [rootCell, DoublePendulum.new2, DoublePendulum.new]
    simp [PendulumFamily.find_all, pickFamily, hin, sortLe, insertLe]

/-- C1 (amended): `can_remove id` is true iff the id is present in the done
set and every recorded child id that is itself *present in the done set* is
stopped there; a recorded child absent from the done set (e.g. still in the
active set) is skipped by the scan and does not block removability. -/
theorem can_remove_spec (f : PendulumFamily) (id : Nat) :
    f.can_remove id = true ↔
      ∃ p, lookupA f.done id = some p ∧
        ∀ c ∈ p.childs, ∀ q, lookupA f.done c = some q → q.stopped = true := by
  unfold PendulumFamily.can_remove
  cases h : lookupA f.done id with
  | none => simp
  | some p =>
    simp only [Option.some.injEq]
    rw [List.all_eq_true]
    constructor
    · intro hall
      refine ⟨p, rfl, ?_⟩
      intro c hc q hq
      have hx := hall c hc
      rw [hq] at hx
      exact hx
    · rintro ⟨p', hp', hcond⟩ c hc
      obtain rfl : p' = p := hp'.symm
      cases hq : lookupA f.done c with
      | none => simp
      | some q =>
        simpa using hcond c hc q hq

/-- C1 counterexample: in `orphanFamily` the done cell 1 records child id 2,
cell 2 is absent from the done set (as an active child would be), yet
`can_remove 1` is `true` — refuting "if any recorded child id is absent from
the done set, `can_remove` returns false". -/
theorem can_remove_counterexample :
    orphanFamily.can_remove 1 = true
  ∧ lookupA orphanFamily.done 1 = some orphanParent
  ∧ (2 : Nat) ∈ orphanParent.childs
  ∧ lookupA orphanFamily.done 2 = none := by
  refine ⟨rfl, rfl, ?_, rfl⟩
  show (2 : Nat) ∈ [2]
  simp

theorem split_core {p p2 : DoublePendulum} {cs : List DoublePendulum}
    {w mp : ℚ} {cfg : Config} (h : p.split w mp cfg = some (p2, cs)) :
    p2.stopped = p.stopped ∧ p2.neighbors = p.neighbors ∧ p2.steps = p.steps
      ∧ p2.id = p.id ∧ p2.expired = p.expired ∧ p2.px = p.px ∧ p2.py = p.py
      ∧ p2.l1 = p.l1 ∧ p2.l2 = p.l2 ∧ p2.scale = p.scale := by
  simp only [DoublePendulum.split] at h
  split at h
  · simp at h
  · split at h
    · simp only [Option.some.injEq, Prod.mk.injEq] at h
      obtain ⟨rfl, rfl⟩ := h
      exact ⟨rfl, rfl, rfl, rfl, rfl, rfl, rfl, rfl, rfl, rfl⟩
    · simp only [Option.some.injEq, Prod.mk.injEq] at h
      obtain ⟨rfl, rfl⟩ := h
      exact ⟨rfl, rfl, rfl, rfl, rfl, rfl, rfl, rfl, rfl, rfl⟩

theorem StoppedMap_insertA {m : List (Nat × DoublePendulum)} {k : Nat}
    {v : DoublePendulum} (hm : StoppedMap m) (hv : v.stopped = true) :
    StoppedMap (insertA m k v) := by
  intro j q hq
  rw [lookupA_insertA] at hq
  by_cases h : j = k
  · rw [if_pos h] at hq
    obtain rfl : v = q := by simpa using hq
    exact hv
  · rw [if_neg h] at hq
    exact hm j q hq

theorem StoppedMap_modifyA {m : List (Nat × DoublePendulum)} {k : Nat}
    {g : DoublePendulum → DoublePendulum} (hm : StoppedMap m)
    (hg : ∀ q, (g q).stopped = q.stopped) : StoppedMap (modifyA m k g) := by
  intro j q hq
  rw [lookupA_modifyA] at hq
  by_cases h : j = k
  · rw [if_pos h] at hq
    cases hl : lookupA m k with
    | none => rw [hl] at hq; simp at hq
    | some q0 =>
      rw [hl] at hq
      obtain rfl : g q0 = q := by simpa using hq
      rw [hg]
      exact hm k q0 hl
  · rw [if_neg h] at hq
    exact hm j q hq

theorem StoppedMap_insertAllA {l : List (Nat × DoublePendulum)} :
    ∀ {m}, StoppedMap m → (∀ kv ∈ l, kv.2.stopped = true) →
    StoppedMap (insertAllA m l) := by
  induction l with
  | nil => intro m hm _; simpa [insertAllA] using hm
  | cons kv rest ih =>
    intro m hm hl
    have h1 : insertAllA m (kv :: rest) = insertAllA (insertA m kv.1 kv.2) rest := rfl
    rw [h1]
    exact ih (StoppedMap_insertA hm (hl kv (List.mem_cons_self kv rest)))
      (fun x hx => hl x (List.mem_cons_of_mem kv hx))

theorem unInner_stoppedMap (parent_id : Nat) :
    ∀ (nbs : List Nat) (c : DoublePendulum)
      (done ps : List (Nat × DoublePendulum)), StoppedMap done →
      StoppedMap (unInner parent_id c done ps nbs).2.1 := by
  intro nbs
  induction nbs with
  | nil => intro c done ps hm; simpa [unInner] using hm
  | cons nid rest ih =>
    intro c done ps hm
    simp only [unInner]
    split
    · exact ih c done ps hm
    · split
      · split
        · exact ih _ _ _ (StoppedMap_modifyA hm (fun q => rfl))
        · exact ih _ _ _ hm
      · split
        · split
          · exact ih _ _ _ hm
          · exact ih _ _ _ hm
        · exact ih _ _ _ hm

theorem unChilds_stoppedMap (parent_id pfid : Nat) (pNbs : List Nat) :
    ∀ (childs : List DoublePendulum) (counter : Nat)
      (done ps : List (Nat × DoublePendulum)) (nbs : List Nat)
      (acc : List DoublePendulum), StoppedMap done →
      StoppedMap (unChilds parent_id pfid pNbs childs counter done ps nbs acc).2.1 := by
  intro childs
  induction childs with
  | nil => intro counter done ps nbs acc hm; simpa [unChilds] using hm
  | cons c rest ih =>
    intro counter done ps nbs acc hm
    simp only [unChilds]
    rcases hu : unInner parent_id { c with id := counter + 1, parent_id := pfid }
        done ps pNbs with ⟨c2, done2, ps2⟩
    have h2 : StoppedMap done2 := by
      have hx := unInner_stoppedMap parent_id pNbs
        { c with id := counter + 1, parent_id := pfid } done ps hm
      rw [hu] at hx
      exact hx
    exact ih _ _ _ _ _ h2

theorem update_neighbors_stoppedMap {f : PendulumFamily} {pid : Nat}
    {childs : List DoublePendulum} {f' : PendulumFamily}
    {cs : List DoublePendulum}
    (h : f.update_neighbors pid childs = some (f', cs))
    (hm : StoppedMap f.done) : StoppedMap f'.done := by
  unfold PendulumFamily.update_neighbors at h
  cases hl : lookupA f.done pid with
  | none => rw [hl] at h; simp at h
  | some p =>
    rw [hl] at h
    simp only [Option.some.injEq, Prod.mk.injEq] at h
    obtain ⟨rfl, rfl⟩ := h
    exact unChilds_stoppedMap pid p.id p.neighbors childs f.counter f.done f.ps [] [] hm

theorem diveScan_stoppedMap (cfg : Config) (fwidth : ℚ) (p : DoublePendulum) :
    ∀ (nbs skip diveSet : List Nat) (ac : Bool)
      (done : List (Nat × DoublePendulum))
      (tu : List (Nat × List DoublePendulum))
      (out : List Nat × List Nat × Bool × List (Nat × DoublePendulum) × List (Nat × List DoublePendulum)),
      diveScan cfg fwidth p nbs skip diveSet ac done tu = some out →
      StoppedMap done → StoppedMap out.2.2.2.1 := by
  intro nbs
  induction nbs with
  | nil =>
    intro skip diveSet ac done tu out h hm
    simp only [diveScan, Option.some.injEq] at h
    subst h
    exact hm
  | cons nid rest ih =>
    intro skip diveSet ac done tu out h hm
    simp only [diveScan] at h
    split at h
    · exact ih _ _ _ _ _ _ h hm
    · split at h
      · exact ih _ _ _ _ _ _ h hm
      · rename_i n hlook
        split at h
        · split at h
          · split at h
            · exact ih _ _ _ _ _ _ h hm
            · split at h
              · exact ih _ _ _ _ _ _ h hm
              · split at h
                · simp at h
                · rename_i n2 cs2 hsplit
                  refine ih _ _ _ _ _ _ h (StoppedMap_insertA hm ?_)
                  rw [(split_core hsplit).1]
                  exact hm nid n hlook
          · exact ih _ _ _ _ _ _ h hm
        · split at h
          · split at h
            · exact ih _ _ _ _ _ _ h hm
            · split at h
              · exact ih _ _ _ _ _ _ h hm
              · split at h
                · simp at h
                · rename_i n2 cs2 hsplit
                  refine ih _ _ _ _ _ _ h (StoppedMap_insertA hm ?_)
                  rw [(split_core hsplit).1]
                  exact hm nid n hlook
          · exact ih _ _ _ _ _ _ h hm

theorem dive_stoppedMap {f : PendulumFamily} {p : DoublePendulum}
    {f2 : PendulumFamily} {tu : List (Nat × List DoublePendulum)}
    (h : f.dive p = some (f2, tu)) (hm : StoppedMap f.done) :
    StoppedMap f2.done := by
  unfold PendulumFamily.dive at h
  split at h
  · simp at h
  · rename_i hstop
    cases hscan : diveScan f.config f.width p p.neighbors [p.id] f.diveSet
        false f.done [] with
    | none => rw [hscan] at h; simp at h
    | some out =>
      rw [hscan] at h
      obtain ⟨oskip, odive, oac, odone, otu⟩ := out
      dsimp only at h
      have hdone : StoppedMap odone :=
        diveScan_stoppedMap f.config f.width p p.neighbors [p.id] f.diveSet
          false f.done [] (oskip, odive, oac, odone, otu) hscan hm
      split at h
      · split at h
        · simp at h
        · rename_i p2 cs hsplit
          simp only [Option.some.injEq, Prod.mk.injEq] at h
          obtain ⟨rfl, rfl⟩ := h
          have hp : p.stopped = true := by
            simpa using hstop
          exact StoppedMap_insertA hdone ((split_core hsplit).1.trans hp)
      · simp only [Option.some.injEq, Prod.mk.injEq] at h
        obtain ⟨rfl, rfl⟩ := h
        exact hdone

theorem diveAllScan_stoppedMap :
    ∀ (ids : List Nat) (f : PendulumFamily)
      (tu : List (Nat × List DoublePendulum))
      (out : PendulumFamily × List (Nat × List DoublePendulum)),
      diveAllScan f ids tu = some out → StoppedMap f.done →
      StoppedMap out.1.done := by
  intro ids
  induction ids with
  | nil =>
    intro f tu out h hm
    simp only [diveAllScan, Option.some.injEq] at h
    subst h
    exact hm
  | cons id rest ih =>
    intro f tu out h hm
    simp only [diveAllScan] at h
    split at h
    · simp at h
    · rename_i p hp
      split at h
      · simp at h
      · rename_i f2 tu2 hdive
        exact ih f2 _ out h (dive_stoppedMap hdive hm)

theorem diveAllLink_stoppedMap :
    ∀ (tus : List (Nat × List DoublePendulum)) (f : PendulumFamily)
      (next : List (Nat × DoublePendulum))
      (out : PendulumFamily × List (Nat × DoublePendulum)),
      diveAllLink f tus next = some out → StoppedMap f.done →
      StoppedMap out.1.done := by
  intro tus
  induction tus with
  | nil =>
    intro f next out h hm
    simp only [diveAllLink, Option.some.injEq] at h
    subst h
    exact hm
  | cons tu rest ih =>
    intro f next out h hm
    rcases tu with ⟨pid, cs⟩
    simp only [diveAllLink] at h
    split at h
    · simp at h
    · rename_i f2 cs2 hun
      exact ih f2 _ out h (update_neighbors_stoppedMap hun hm)

theorem dive_all_stoppedMap {f : PendulumFamily} {ids : List Nat}
    {f2 : PendulumFamily} {next : List (Nat × DoublePendulum)}
    (h : f.dive_all ids = some (f2, next)) (hm : StoppedMap f.done) :
    StoppedMap f2.done := by
  unfold PendulumFamily.dive_all at h
  split at h
  · simp at h
  · rename_i fs tus hscan
    have h1 : StoppedMap fs.done := by
      have := diveAllScan_stoppedMap ids f [] (fs, tus) hscan hm
      exact this
    exact diveAllLink_stoppedMap tus fs [] (f2, next) h h1

theorem bootStage_stoppedMap {f : PendulumFamily}
    {next : List (Nat × DoublePendulum)} {f2 : PendulumFamily}
    {next2 : List (Nat × DoublePendulum)}
    (h : f.bootStage next = some (f2, next2)) (hm : StoppedMap f.done) :
    StoppedMap f2.done := by
  unfold PendulumFamily.bootStage at h
  split at h
  · split at h
    · simp at h
    · rename_i i pref tail heq
      dsimp only at h
      split at h
      · simp at h
      · rename_i p2 cs hsplit
        split at h
        · simp at h
        · rename_i f3 cs2 hun
          simp only [Option.some.injEq, Prod.mk.injEq] at h
          obtain ⟨rfl, rfl⟩ := h
          refine update_neighbors_stoppedMap hun (StoppedMap_insertA hm ?_)
          rw [(split_core hsplit).1]
          cases hps : pref.stopped <;> simp [hps]
  · simp only [Option.some.injEq, Prod.mk.injEq] at h
    obtain ⟨rfl, rfl⟩ := h
    exact hm

theorem postPhysics_stoppedMap {f : PendulumFamily} {expF : ℚ → ℚ}
    {results : List (Nat × DoublePendulum)} {f' : PendulumFamily}
    (h : f.postPhysics expF results = some f') (hm : StoppedMap f.done) :
    StoppedMap f'.done := by
  unfold PendulumFamily.postPhysics at h
  dsimp only at h
  split at h
  · simp at h
  · rename_i f2 next2 hboot
    split at h
    · simp at h
    · rename_i f4 diveNext hdive
      simp only [Option.some.injEq] at h
      subst h
      have h1 : StoppedMap (insertAllA f.done
          (results.filter fun kv => kv.2.stopped)) :=
        StoppedMap_insertAllA hm (fun kv hkv => (List.mem_filter.mp hkv).2)
      have h2 : StoppedMap f2.done := bootStage_stoppedMap hboot h1
      have h3 : StoppedMap f4.done := dive_all_stoppedMap hdive h2
      exact h3

/-- C2: the stopped flag is monotone.  `step` leaves an already-stopped cell
entirely unchanged (so `stopped` stays true); iterated integration
(`update`) keeps a stopped cell stopped; `split` never changes the parent's
stopped flag; and a family generation (`postPhysics`, the sequential
semantics of `PendulumFamily::update`) maps a done set whose cells are all
stopped to a done set whose cells are all stopped — no operation ever
resets `stopped` to false. -/
theorem stopped_monotone_spec :
    (∀ (sinF cosF : ℚ → ℚ) (delta : ℚ) (max_step : Nat) (p : DoublePendulum),
        p.stopped = true → p.step sinF cosF delta max_step = p)
  ∧ (∀ (sinF cosF : ℚ → ℚ) (n max_step : Nat) (p : DoublePendulum),
        p.stopped = true → (p.update sinF cosF n max_step).stopped = true)
  ∧ (∀ (p p2 : DoublePendulum) (cs : List DoublePendulum) (w mp : ℚ)
        (cfg : Config), p.split w mp cfg = some (p2, cs) →
        p2.stopped = p.stopped)
  ∧ (∀ (f : PendulumFamily) (expF : ℚ → ℚ)
        (results : List (Nat × DoublePendulum)) (f' : PendulumFamily),
        f.postPhysics expF results = some f' → StoppedMap f.done →
        StoppedMap f'.done) := by
  have hstep : ∀ (sinF cosF : ℚ → ℚ) (delta : ℚ) (max_step : Nat)
      (p : DoublePendulum), p.stopped = true →
      p.step sinF cosF delta max_step = p := by
    intro sinF cosF delta max_step p hp
    simp [DoublePendulum.step, hp]
  refine ⟨hstep, ?_, fun p p2 cs w mp cfg h => (split_core h).1,
    fun f expF results f' h hm => postPhysics_stoppedMap h hm⟩
  intro sinF cosF n max_step p hp
  have hfix : p.update sinF cosF n max_step = p :=
    Function.iterate_fixed (hstep sinF cosF stepDelta max_step p hp) n
  rw [hfix]
  exact hp

/-- C2 witness: each conjunct applied at a concrete input — the stopped root
is a fixed point of `step` and stays stopped under `update`; a concrete
`split` preserves the flag; and a concrete generation update preserves the
all-done-stopped invariant. -/
theorem stopped_monotone_witness :
    (rootStopped.step (fun _ => 0) (fun _ => 0) stepDelta 460000 = rootStopped)
  ∧ ((rootStopped.update (fun _ => 0) (fun _ => 0) 100 460000).stopped = true)
  ∧ (∃ p2 cs, belowMinCell.split 2048 4 cfgMain = some (p2, cs)
      ∧ p2.stopped = belowMinCell.stopped)
  ∧ (∃ f', emptyFam.postPhysics (fun _ => 0) [] = some f'
      ∧ StoppedMap f'.done) := by
  have hsplit : belowMinCell.split 2048 4 cfgMain = some (belowMinCell, []) := by
    norm_num [belowMinCell, cfgMain, DoublePendulum.split, DoublePendulum.new2,
      DoublePendulum.new, DoublePendulum.width]
  have hpost : emptyFam.postPhysics (fun _ => 0) []
      = some { emptyFam with iter := 1, update_steps := 10 } := by
    rfl
  refine ⟨stopped_monotone_spec.1 _ _ stepDelta 460000 rootStopped rfl,
    stopped_monotone_spec.2.1 _ _ 100 460000 rootStopped rfl,
    ⟨belowMinCell, [], hsplit,
      stopped_monotone_spec.2.2.1 belowMinCell belowMinCell [] 2048 4 cfgMain hsplit⟩,
    ⟨{ emptyFam with iter := 1, update_steps := 10 }, hpost,
      stopped_monotone_spec.2.2.2 emptyFam (fun _ => 0) [] _ hpost ?_⟩⟩
  intro k q hq
  simp [emptyFam, lookupA] at hq

/-- C7 counterexample: the primary integrator (`pendulum.rs`'s `step`) does
not abort on a non-finite state — fed a still-active cell whose θ1 is
already NaN, the step returns normally (`Except.ok`), θ1 is still NaN, the
cell is still not stopped, and no error is ever produced; the claimed
"aborts iff the state is non-finite" fails at this input. -/
theorem step_nan_counterexample :
    (∃ s1, NanModel.FPendulum.stepE id id stepDelta 1000 nanCell
        = Except.ok s1 ∧ s1.theta1 = none ∧ s1.stopped = false
        ∧ s1.steps = 1)
  ∧ ∀ e, NanModel.FPendulum.stepE id id stepDelta 1000 nanCell
      ≠ Except.error e := by
  constructor
  · exact ⟨_, rfl, rfl, rfl, rfl⟩
  · intro e he
    simp [NanModel.FPendulum.stepE] at he

/-- C7 (amended): the primary integrator (`pendulum.rs` `step`) has no
failure path at all — its `Except` image is always `ok`, and on a NaN state
it silently continues (θ1 stays NaN, the step counter still advances).  Only
the `p2.rs` variant aborts, and it does so exactly when one of the six
checked values (the two freshly computed accelerations, both velocities,
both angles) is NaN after the acceleration computation; its diagnostic
carries the eight state values the source prints — without the cell id. -/
theorem nan_abort_spec :
    (∀ (sinF cosF : Option ℚ → Option ℚ) (delta : ℚ) (max_step : Nat)
        (s : NanModel.FPendulum),
        NanModel.FPendulum.stepE sinF cosF delta max_step s
          = Except.ok (s.step sinF cosF delta max_step))
  ∧ (∀ (sinF cosF : Option ℚ → Option ℚ) (delta : ℚ) (max_step : Nat)
        (s : NanModel.FPendulum),
        s.stopped = false → s.steps < max_step → s.theta1 = none →
        (s.step sinF cosF delta max_step).theta1 = none
          ∧ (s.step sinF cosF delta max_step).steps = s.steps + 1)
  ∧ (∀ (sinF cosF : Option ℚ → Option ℚ) (delta : ℚ)
        (s : NanModel.P2Pendulum),
        (∃ e, s.step sinF cosF delta = Except.error e) ↔
          ((NanModel.p2accel sinF cosF { s with steps := s.steps + 1 }).1 = none
            ∨ s.dt1 = none ∨ s.theta1 = none
            ∨ (NanModel.p2accel sinF cosF { s with steps := s.steps + 1 }).2 = none
            ∨ s.dt2 = none ∨ s.theta2 = none))
  ∧ (∀ (sinF cosF : Option ℚ → Option ℚ) (delta : ℚ)
        (s : NanModel.P2Pendulum) (e : List (Option ℚ)),
        s.step sinF cosF delta = Except.error e →
        e = [s.l1, s.l2, s.theta1, s.dt1,
          (NanModel.p2accel sinF cosF { s with steps := s.steps + 1 }).1,
          s.theta2, s.dt2,
          (NanModel.p2accel sinF cosF { s with steps := s.steps + 1 }).2]) := by
  refine ⟨fun _ _ _ _ _ => rfl, ?_, ?_, ?_⟩
  · intro sinF cosF delta max_step s hstop hlt hnan
    have h1 : ¬ (s.stopped = true) := by simp [hstop]
    have h2 : ¬ (max_step ≤ s.steps) := not_le.mpr hlt
    constructor <;>
      simp [NanModel.FPendulum.step, if_neg h1, if_neg h2, hnan, NanModel.fAdd]
  · intro sinF cosF delta s
    simp only [NanModel.P2Pendulum.step]
    split
    · rename_i hcond
      simp only [Bool.or_eq_true, Option.isNone_iff_eq_none] at hcond
      constructor
      · intro _
        tauto
      · intro _
        exact ⟨_, rfl⟩
    · rename_i hcond
      simp only [Bool.or_eq_true, Option.isNone_iff_eq_none] at hcond
      constructor
      · rintro ⟨e, he⟩
        simp at he
      · intro hx
        exact (hcond (by tauto)).elim
  · intro sinF cosF delta s e he
    simp only [NanModel.P2Pendulum.step] at he
    split at he
    · simpa using he.symm
    · simp at he

/-- C7 witness for the amended statement: the NaN-state cell flows through
the primary integrator unchanged-in-kind (θ1 still NaN, counter advanced),
while the `p2.rs` variant on the analogous NaN cell produces an error. -/
theorem nan_abort_witness :
    ((nanCell.step id id stepDelta 1000).theta1 = none
      ∧ (nanCell.step id id stepDelta 1000).steps = 1)
  ∧ (∃ e, p2NanCell.step id id stepDelta = Except.error e) := by
  constructor
  · exact nan_abort_spec.2.1 id id stepDelta 1000 nanCell rfl
      (by show (0 : Nat) < 1000; norm_num) rfl
  · exact (nan_abort_spec.2.2.1 id id stepDelta p2NanCell).mpr
      (Or.inr (Or.inr (Or.inl rfl)))

theorem split_four (p : DoublePendulum) (width min_pixel : ℚ) (config : Config)
    (hstop : p.stopped = true) (hmin : ¬ (p.width < min_pixel))
    (h1 : p.px - p.width / 2 > 0) (h2 : p.py - p.width / 2 > 0)
    (h3 : p.px + p.width / 2 < width) (h4 : p.py + p.width / 2 < width) :
    p.split width min_pixel config =
      some ({ p with childs := p.childs ++ [0, 0, 0, 0] },
        [DoublePendulum.new2 (p.px - p.width / 2) (p.py - p.width / 2) width
          (p.scale / 2) config,
         DoublePendulum.new2 (p.px - p.width / 2) (p.py + p.width / 2) width
          (p.scale / 2) config,
         DoublePendulum.new2 (p.px + p.width / 2) (p.py - p.width / 2) width
          (p.scale / 2) config,
         DoublePendulum.new2 (p.px + p.width / 2) (p.py + p.width / 2) width
          (p.scale / 2) config]) := by
  simp only [DoublePendulum.split]
  rw [if_neg (by simp [hstop]), if_neg hmin, if_pos ⟨h3, h4⟩, if_pos ⟨h3, h2⟩,
    if_pos ⟨h1, h4⟩, if_pos ⟨h1, h2⟩]
  simp [DoublePendulum.new2, DoublePendulum.new]

theorem unChilds_nil_four (parent_id pfid : Nat) (c1 c2 c3 c4 : DoublePendulum)
    (counter : Nat) (done ps : List (Nat × DoublePendulum)) :
    unChilds parent_id pfid [] [c1, c2, c3, c4] counter done ps [] [] =
      (counter + 1 + 1 + 1 + 1, done, ps,
        [counter + 1, counter + 1 + 1, counter + 1 + 1 + 1, counter + 1 + 1 + 1 + 1],
        [{ c1 with id := counter + 1, parent_id := pfid },
         { c2 with id := counter + 1 + 1, parent_id := pfid },
         { c3 with id := counter + 1 + 1 + 1, parent_id := pfid },
         { c4 with id := counter + 1 + 1 + 1 + 1, parent_id := pfid }]) := by
  simp only [unChilds, unInner]
  rfl

theorem dive_no_neighbors (f : PendulumFamily) (p : DoublePendulum)
    (hstop : p.stopped = true) (hnb : p.neighbors = []) :
    f.dive p = some (f, []) := by
  unfold PendulumFamily.dive
  rw [if_neg (by simp [hstop]), hnb]
  dsimp only [diveScan]
  rw [if_neg ?hc]
  case hc =>
    rintro ⟨_, _, h3 | h3⟩ <;> simp at h3

/-- C6: in the generation update, when classification leaves zero active
cells and exactly one done cell (the stopped root-like cell `c`, with no
neighbors, width at or above the minimum and a centered anchor), that cell
ends the generation stopped in the done set and is immediately subdivided,
and the next generation's active set is exactly its four forced-subdivision
children (fresh ids `counter+1 … counter+4`, parent `c`, halved scale) — in
particular it is not empty. -/
theorem bootstrap_spec (f : PendulumFamily) (expF : ℚ → ℚ) (i : Nat)
    (c : DoublePendulum)
    (hdone : f.done = []) (hstop : c.stopped = true) (hid : c.id = i)
    (hnb : c.neighbors = [])
    (hmin : ¬ (c.width < f.config.min_pixel))
    (h1 : c.px - c.width / 2 > 0) (h2 : c.py - c.width / 2 > 0)
    (h3 : c.px + c.width / 2 < f.width) (h4 : c.py + c.width / 2 < f.width) :
    ∃ f', f.postPhysics expF [(i, c)] = some f'
      ∧ f'.ps.length = 4
      ∧ f'.ps ≠ []
      ∧ (f'.ps.map fun kv => kv.1)
          = [f.counter + 1, f.counter + 2, f.counter + 3, f.counter + 4]
      ∧ (∀ kv ∈ f'.ps, kv.2.parent_id = c.id ∧ kv.2.stopped = false
          ∧ kv.2.scale = c.scale / 2)
      ∧ (∃ p2, lookupA f'.done i = some p2 ∧ p2.stopped = true) := by
  have hsplit : c.split f.width f.config.min_pixel f.config =
      some ({ c with childs := c.childs ++ [0, 0, 0, 0] },
        [DoublePendulum.new2 (c.px - c.width / 2) (c.py - c.width / 2) f.width
          (c.scale / 2) f.config,
         DoublePendulum.new2 (c.px - c.width / 2) (c.py + c.width / 2) f.width
          (c.scale / 2) f.config,
         DoublePendulum.new2 (c.px + c.width / 2) (c.py - c.width / 2) f.width
          (c.scale / 2) f.config,
         DoublePendulum.new2 (c.px + c.width / 2) (c.py + c.width / 2) f.width
          (c.scale / 2) f.config]) :=
    split_four c f.width f.config.min_pixel f.config hstop hmin h1 h2 h3 h4
  have heps1 : (List.filter (fun kv => kv.2.stopped) [(i, c)]) = [(i, c)] := by
    simp [hstop]
  have heps2 : (List.filter (fun kv => !kv.2.stopped) [(i, c)])
      = ([] : List (Nat × DoublePendulum)) := by
    simp [hstop]
  obtain ⟨f', hf'⟩ : ∃ f', f.postPhysics expF [(i, c)] = some f' := by
    simp [PendulumFamily.postPhysics, heps1, heps2, hdone,
      PendulumFamily.bootStage, PendulumFamily.update_neighbors,
      PendulumFamily.dive_all, insertAllA, insertA, lookupA,
      hstop, hid, hnb, hsplit, unChilds_nil_four, diveAllScan,
      diveAllLink, dive_no_neighbors, Nat.add_assoc, add_right_inj]
  have hval := hf'
  simp [PendulumFamily.postPhysics, heps1, heps2, hdone,
    PendulumFamily.bootStage, PendulumFamily.update_neighbors,
    PendulumFamily.dive_all, insertAllA, insertA, lookupA,
    hstop, hid, hnb, hsplit, unChilds_nil_four, diveAllScan,
    diveAllLink, dive_no_neighbors, Nat.add_assoc, add_right_inj] at hval
  subst hval
  refine ⟨_, hf', ?_, ?_, ?_, ?_, ?_⟩
  · rfl
  · simp
  · rfl
  · intro kv hkv
    simp only [List.mem_cons, List.not_mem_nil, or_false] at hkv
    rcases hkv with rfl | rfl | rfl | rfl <;>
      exact ⟨hid.symm, by simp [DoublePendulum.new2, DoublePendulum.new],
        by simp [DoublePendulum.new2, DoublePendulum.new]⟩
  · refine
      ⟨{ c with
          id := i
          childs := c.childs ++ [0, 0, 0, 0]
          neighbors := []
          stopped := true },
        ?_, rfl⟩
    simp [lookupA]

/-- C6 witness: the concrete single-root generation — zero active results,
the stopped root as the one done cell — produces exactly the four children
(ids 2..5) as the new active set, root retained stopped in `done`. -/
theorem bootstrap_witness :
    ∃ f', bootFam.postPhysics (fun _ => 0) [(1, rootStopped)] = some f'
      ∧ f'.ps.length = 4
      ∧ f'.ps ≠ []
      ∧ (f'.ps.map fun kv => kv.1)
          = [bootFam.counter + 1, bootFam.counter + 2, bootFam.counter + 3,
             bootFam.counter + 4]
      ∧ (∀ kv ∈ f'.ps, kv.2.parent_id = rootStopped.id ∧ kv.2.stopped = false
          ∧ kv.2.scale = rootStopped.scale / 2)
      ∧ (∃ p2, lookupA f'.done 1 = some p2 ∧ p2.stopped = true) :=
  bootstrap_spec bootFam (fun _ => 0) 1 rootStopped rfl rfl rfl rfl
    (by norm_num [rootStopped, rootCell, cfgMain, bootFam, DoublePendulum.new2,
      DoublePendulum.new, DoublePendulum.width])
    (by norm_num [rootStopped, rootCell, DoublePendulum.new2, DoublePendulum.new,
      DoublePendulum.width])
    (by norm_num [rootStopped, rootCell, DoublePendulum.new2, DoublePendulum.new,
      DoublePendulum.width])
    (by norm_num [rootStopped, rootCell, bootFam, DoublePendulum.new2,
      DoublePendulum.new, DoublePendulum.width])
    (by norm_num [rootStopped, rootCell, bootFam, DoublePendulum.new2,
      DoublePendulum.new, DoublePendulum.width])

theorem adjacent_nb_left (c q : DoublePendulum) (nb : List Nat) :
    DoublePendulum.adjacent { c with neighbors := nb } q = c.adjacent q := rfl

theorem adjacent_nb_right (c q : DoublePendulum) (nb : List Nat) :
    c.adjacent { q with neighbors := nb } = c.adjacent q := rfl

theorem adjacent_idpar_left (c q : DoublePendulum) (i j : Nat) :
    DoublePendulum.adjacent { c with id := i, parent_id := j } q
      = c.adjacent q := rfl

theorem qualB_nb_child (d p : List (Nat × DoublePendulum)) (pid : Nat)
    (c : DoublePendulum) (nb : List Nat) (k : Nat) :
    qualB d p pid { c with neighbors := nb } k = qualB d p pid c k := by
  by_cases hk : k = pid
  · simp [qualB, hk]
  · simp only [qualB, if_neg hk]
    cases lookupDP d p k with
    | none => rfl
    | some q => exact adjacent_nb_left c q nb

theorem qualB_idpar_child (d p : List (Nat × DoublePendulum)) (pid : Nat)
    (c : DoublePendulum) (i j : Nat) (k : Nat) :
    qualB d p pid { c with id := i, parent_id := j } k = qualB d p pid c k := by
  by_cases hk : k = pid
  · simp [qualB, hk]
  · simp only [qualB, if_neg hk]
    cases lookupDP d p k with
    | none => rfl
    | some q => exact adjacent_idpar_left c q i j

theorem qualB_modifyA_done (done ps : List (Nat × DoublePendulum))
    (j pid cid : Nat) (c : DoublePendulum) (k : Nat) :
    qualB (modifyA done j fun q => { q with neighbors := q.neighbors ++ [cid] })
        ps pid c k
      = qualB done ps pid c k := by
  by_cases hk : k = pid
  · simp [qualB, hk]
  · simp only [qualB, if_neg hk, lookupDP, lookupA_modifyA]
    by_cases hj : k = j
    · subst hj
      cases hdk : lookupA done k with
      | none => simp
      | some q => simp [adjacent_nb_right]
    · simp [hj]

theorem qualB_modifyA_ps (done ps : List (Nat × DoublePendulum))
    (j pid cid : Nat) (c : DoublePendulum) (k : Nat) :
    qualB done (modifyA ps j fun q => { q with neighbors := q.neighbors ++ [cid] })
        pid c k
      = qualB done ps pid c k := by
  by_cases hk : k = pid
  · simp [qualB, hk]
  · simp only [qualB, if_neg hk, lookupDP, lookupA_modifyA]
    cases hdk : lookupA done k with
    | some q => rfl
    | none =>
      by_cases hj : k = j
      · subst hj
        cases hpk : lookupA ps k with
        | none => simp
        | some q => simp [adjacent_nb_right]
      · simp [hj]

theorem WellKeyed_modifyA_nb {m : List (Nat × DoublePendulum)} {j cid : Nat}
    (hm : WellKeyed m) :
    WellKeyed (modifyA m j fun q => { q with neighbors := q.neighbors ++ [cid] }) := by
  intro k q hq
  rw [lookupA_modifyA] at hq
  by_cases hj : k = j
  · rw [if_pos hj] at hq
    cases hmk : lookupA m j with
    | none => rw [hmk] at hq; simp at hq
    | some q0 =>
      rw [hmk] at hq
      have hq2 : { q0 with neighbors := q0.neighbors ++ [cid] } = q := by
        simpa using hq
      have : q0.id = j := hm j q0 hmk
      rw [← hq2]
      simpa [hj] using this
  · rw [if_neg hj] at hq
    exact hm k q hq

theorem id_set_nb (c : DoublePendulum) (nb : List Nat) :
    ({ c with neighbors := nb } : DoublePendulum).id = c.id := rfl

theorem UnInnerOut_skip {pid nid : Nat} {rest : List Nat} {c : DoublePendulum}
    {done ps : List (Nat × DoublePendulum)}
    {out : DoublePendulum × List (Nat × DoublePendulum) × List (Nat × DoublePendulum)}
    (hqual : qualB done ps pid c nid = false)
    (hrest : UnInnerOut pid c done ps rest out) :
    UnInnerOut pid c done ps (nid :: rest) out := by
  obtain ⟨h1, h2, h3, h4⟩ := hrest
  have hcond : ∀ k, (k ∈ nid :: rest ∧ qualB done ps pid c k = true)
      = (k ∈ rest ∧ qualB done ps pid c k = true) := by
    intro k
    apply propext
    constructor
    · rintro ⟨hm, hq⟩
      rcases List.mem_cons.mp hm with h | h
      · subst h; rw [hqual] at hq; cases hq
      · exact ⟨h, hq⟩
    · rintro ⟨hm, hq⟩
      exact ⟨List.mem_cons_of_mem _ hm, hq⟩
  refine ⟨?_, ?_, ?_, h4⟩
  · rw [h1, List.filter_cons, if_neg (by simp [hqual])]
  · intro k
    rw [h2 k]
    simp only [hcond]
  · intro k hk
    rw [h3 k hk]
    simp only [hcond]

theorem qualB_nb_child_fun (d p : List (Nat × DoublePendulum)) (pid : Nat)
    (c : DoublePendulum) (nb : List Nat) :
    qualB d p pid { c with neighbors := nb } = qualB d p pid c :=
  funext fun k => qualB_nb_child d p pid c nb k

theorem qualB_idpar_child_fun (d p : List (Nat × DoublePendulum)) (pid : Nat)
    (c : DoublePendulum) (i j : Nat) :
    qualB d p pid { c with id := i, parent_id := j } = qualB d p pid c :=
  funext fun k => qualB_idpar_child d p pid c i j k

theorem qualB_modifyA_done_fun (done ps : List (Nat × DoublePendulum))
    (j pid cid : Nat) :
    qualB (modifyA done j fun q => { q with neighbors := q.neighbors ++ [cid] }) ps pid
      = qualB done ps pid :=
  funext fun c => funext fun k => qualB_modifyA_done done ps j pid cid c k

theorem qualB_modifyA_ps_fun (done ps : List (Nat × DoublePendulum))
    (j pid cid : Nat) :
    qualB done (modifyA ps j fun q => { q with neighbors := q.neighbors ++ [cid] }) pid
      = qualB done ps pid :=
  funext fun c => funext fun k => qualB_modifyA_ps done ps j pid cid c k

theorem unInner_spec (pid : Nat) :
    ∀ (nbs : List Nat) (c : DoublePendulum)
      (done ps : List (Nat × DoublePendulum)),
      WellKeyed done → WellKeyed ps → nbs.Nodup →
      UnInnerOut pid c done ps nbs (unInner pid c done ps nbs) := by
  intro nbs
  induction nbs with
  | nil =>
    intro c done ps hwd hwp hnd
    refine ⟨by simp [unInner], ?_, ?_, ?_⟩
    · intro k
      simp only [unInner]
      cases lookupA done k <;> simp
    · intro k hk
      simp only [unInner]
      cases lookupA ps k <;> simp
    · intro k q hk
      simp only [unInner]
  | cons nid rest ih =>
    intro c done ps hwd hwp hnd
    have hndr : rest.Nodup := (List.nodup_cons.mp hnd).2
    have hnin : nid ∉ rest := (List.nodup_cons.mp hnd).1
    by_cases hpid : nid = pid
    · have hqual : qualB done ps pid c nid = false := by
        simp [qualB, hpid]
      have hstep : unInner pid c done ps (nid :: rest) = unInner pid c done ps rest := by
        simp only [unInner, if_pos hpid]
      rw [hstep]
      exact UnInnerOut_skip hqual (ih c done ps hwd hwp hndr)
    · cases hdn : lookupA done nid with
      | some pn =>
        have hpn : pn.id = nid := hwd nid pn hdn
        cases hadj : c.adjacent pn with
        | false =>
          have hqual : qualB done ps pid c nid = false := by
            simp only [qualB, if_neg hpid, lookupDP, hdn]
            exact hadj
          have hstep : unInner pid c done ps (nid :: rest) = unInner pid c done ps rest := by
            simp only [unInner, if_neg hpid, hdn, hadj]
            simp
          rw [hstep]
          exact UnInnerOut_skip hqual (ih c done ps hwd hwp hndr)
        | true =>
          have hqual : qualB done ps pid c nid = true := by
            simp only [qualB, if_neg hpid, lookupDP, hdn]
            exact hadj
          have hstep : unInner pid c done ps (nid :: rest) =
              unInner pid { c with neighbors := c.neighbors ++ [pn.id] }
                (modifyA done nid fun q => { q with neighbors := q.neighbors ++ [c.id] })
                ps rest := by
            simp only [unInner, if_neg hpid, hdn, hadj]
            simp
          have hwd' : WellKeyed
              (modifyA done nid fun q => { q with neighbors := q.neighbors ++ [c.id] }) :=
            WellKeyed_modifyA_nb hwd
          obtain ⟨ih1, ih2, ih3, ih4⟩ :=
            ih { c with neighbors := c.neighbors ++ [pn.id] }
              (modifyA done nid fun q => { q with neighbors := q.neighbors ++ [c.id] })
              ps hwd' hwp hndr
          simp only [qualB_nb_child_fun, qualB_modifyA_done_fun, id_set_nb] at ih1 ih2 ih3
          rw [hstep]
          refine ⟨?_, ?_, ?_, ?_⟩
          · rw [ih1, hpn]
            simp [List.filter_cons, hqual]
          · intro k
            rw [ih2 k, lookupA_modifyA]
            by_cases hk : k = nid
            · subst hk
              rw [if_pos rfl, hdn]
              have h1 : ¬(k ∈ rest ∧ qualB done ps pid c k = true) := fun h => hnin h.1
              have h2 : k ∈ k :: rest ∧ qualB done ps pid c k = true :=
                ⟨List.mem_cons_self k rest, hqual⟩
              simp [h1, h2, hnin]
            · rw [if_neg hk]
              have hmem : (k ∈ nid :: rest ∧ qualB done ps pid c k = true)
                  = (k ∈ rest ∧ qualB done ps pid c k = true) := by
                apply propext
                simp [List.mem_cons, hk]
              simp only [hmem]
          · intro k hdk
            have hknid : k ≠ nid := by
              intro h
              rw [h, hdn] at hdk
              exact Option.noConfusion hdk
            have hdk2 : lookupA
                (modifyA done nid fun q => { q with neighbors := q.neighbors ++ [c.id] })
                k = none := by
              rw [lookupA_modifyA, if_neg hknid]
              exact hdk
            rw [ih3 k hdk2]
            have hmem : (k ∈ nid :: rest ∧ qualB done ps pid c k = true)
                = (k ∈ rest ∧ qualB done ps pid c k = true) := by
              apply propext
              simp [List.mem_cons, hknid]
            simp only [hmem]
          · intro k q hdq
            by_cases hk : k = nid
            · subst hk
              refine ih4 k { pn with neighbors := pn.neighbors ++ [c.id] } ?_
              rw [lookupA_modifyA, if_pos rfl, hdn]
              rfl
            · refine ih4 k q ?_
              rw [lookupA_modifyA, if_neg hk]
              exact hdq
      | none =>
        cases hpsn : lookupA ps nid with
        | none =>
          have hqual : qualB done ps pid c nid = false := by
            simp [qualB, if_neg hpid, lookupDP, hdn, hpsn]
          have hstep : unInner pid c done ps (nid :: rest) = unInner pid c done ps rest := by
            simp only [unInner, if_neg hpid, hdn, hpsn]
          rw [hstep]
          exact UnInnerOut_skip hqual (ih c done ps hwd hwp hndr)
        | some pn =>
          have hpn : pn.id = nid := hwp nid pn hpsn
          cases hadj : c.adjacent pn with
          | false =>
            have hqual : qualB done ps pid c nid = false := by
              simp only [qualB, if_neg hpid, lookupDP, hdn, hpsn]
              exact hadj
            have hstep : unInner pid c done ps (nid :: rest) = unInner pid c done ps rest := by
              simp only [unInner, if_neg hpid, hdn, hpsn, hadj]
              simp
            rw [hstep]
            exact UnInnerOut_skip hqual (ih c done ps hwd hwp hndr)
          | true =>
            have hqual : qualB done ps pid c nid = true := by
              simp only [qualB, if_neg hpid, lookupDP, hdn, hpsn]
              exact hadj
            have hstep : unInner pid c done ps (nid :: rest) =
                unInner pid { c with neighbors := c.neighbors ++ [pn.id] } done
                  (modifyA ps nid fun q => { q with neighbors := q.neighbors ++ [c.id] })
                  rest := by
              simp only [unInner, if_neg hpid, hdn, hpsn, hadj]
              simp
            have hwp' : WellKeyed
                (modifyA ps nid fun q => { q with neighbors := q.neighbors ++ [c.id] }) :=
              WellKeyed_modifyA_nb hwp
            obtain ⟨ih1, ih2, ih3, ih4⟩ :=
              ih { c with neighbors := c.neighbors ++ [pn.id] } done
                (modifyA ps nid fun q => { q with neighbors := q.neighbors ++ [c.id] })
                hwd hwp' hndr
            simp only [qualB_nb_child_fun, qualB_modifyA_ps_fun, id_set_nb] at ih1 ih2 ih3
            rw [hstep]
            refine ⟨?_, ?_, ?_, ?_⟩
            · rw [ih1, hpn]
              simp [List.filter_cons, hqual]
            · intro k
              rw [ih2 k]
              by_cases hk : k = nid
              · subst hk
                rw [hdn]
                simp
              · have hmem : (k ∈ nid :: rest ∧ qualB done ps pid c k = true)
                    = (k ∈ rest ∧ qualB done ps pid c k = true) := by
                  apply propext
                  simp [List.mem_cons, hk]
                simp only [hmem]
            · intro k hdk
              rw [ih3 k hdk, lookupA_modifyA]
              by_cases hk : k = nid
              · subst hk
                rw [if_pos rfl, hpsn]
                have h1 : ¬(k ∈ rest ∧ qualB done ps pid c k = true) := fun h => hnin h.1
                have h2 : k ∈ k :: rest ∧ qualB done ps pid c k = true :=
                  ⟨List.mem_cons_self k rest, hqual⟩
                simp [h1, h2, hnin]
              · rw [if_neg hk]
                have hmem : (k ∈ nid :: rest ∧ qualB done ps pid c k = true)
                    = (k ∈ rest ∧ qualB done ps pid c k = true) := by
                  apply propext
                  simp [List.mem_cons, hk]
                simp only [hmem]
            · intro k q hdq
              have hknid : k ≠ nid := by
                intro h
                rw [h, hdn] at hdq
                exact Option.noConfusion hdq
              rw [ih4 k q hdq, lookupA_modifyA, if_neg hknid]

theorem id_set_idpar (c : DoublePendulum) (i j : Nat) :
    ({ c with id := i, parent_id := j } : DoublePendulum).id = i := rfl

theorem nb_set_idpar (c : DoublePendulum) (i j : Nat) :
    ({ c with id := i, parent_id := j } : DoublePendulum).neighbors = c.neighbors := rfl

theorem qualB_unInner (pid : Nat) (nbs : List Nat) (c0 : DoublePendulum)
    (done ps : List (Nat × DoublePendulum))
    (hwd : WellKeyed done) (hwp : WellKeyed ps) (hnd : nbs.Nodup) :
    qualB (unInner pid c0 done ps nbs).2.1 (unInner pid c0 done ps nbs).2.2 pid
      = qualB done ps pid := by
  obtain ⟨-, u2, u3, u4⟩ := unInner_spec pid nbs c0 done ps hwd hwp hnd
  funext c k
  by_cases hk : k = pid
  · simp [qualB, hk]
  · simp only [qualB, if_neg hk, lookupDP]
    cases hdk : lookupA done k with
    | some q =>
      rw [u2 k, hdk]
      dsimp only [Option.map]
      by_cases hc : k ∈ nbs ∧ qualB done ps pid c0 k = true
      · rw [if_pos hc]
        exact adjacent_nb_right c q _
      · rw [if_neg hc]
    | none =>
      rw [u2 k, hdk, u3 k hdk]
      cases hpk : lookupA ps k with
      | none => rfl
      | some q =>
        dsimp only [Option.map]
        by_cases hc : k ∈ nbs ∧ qualB done ps pid c0 k = true
        · rw [if_pos hc]
          exact adjacent_nb_right c q _
        · rw [if_neg hc]

theorem repairedChilds_congr {d1 p1 d2 p2 : List (Nat × DoublePendulum)}
    {pid : Nat} (pfid : Nat) (pNbs : List Nat)
    (h : qualB d1 p1 pid = qualB d2 p2 pid) :
    ∀ (childs : List DoublePendulum) (counter : Nat),
      repairedChilds d1 p1 pid pfid pNbs childs counter
        = repairedChilds d2 p2 pid pfid pNbs childs counter := by
  intro childs
  induction childs with
  | nil => intro counter; rfl
  | cons ch rest ih =>
    intro counter
    simp only [repairedChilds, h, ih]

theorem linkIds_congr {d1 p1 d2 p2 : List (Nat × DoublePendulum)}
    {pid : Nat}
    (h : qualB d1 p1 pid = qualB d2 p2 pid) :
    ∀ (childs : List DoublePendulum) (counter k : Nat),
      linkIds d1 p1 pid childs counter k = linkIds d2 p2 pid childs counter k := by
  intro childs
  induction childs with
  | nil => intro counter k; rfl
  | cons ch rest ih =>
    intro counter k
    simp only [linkIds, h, ih]

theorem id_of_mapIf {x : Option DoublePendulum} {q : DoublePendulum}
    {P : Prop} [Decidable P] {ids : List Nat} {k : Nat}
    (hx : ∀ q0, x = some q0 → q0.id = k)
    (h : (x.map fun q0 =>
        if P then { q0 with neighbors := q0.neighbors ++ ids } else q0) = some q) :
    q.id = k := by
  cases x with
  | none => cases h
  | some q0 =>
    have hid := hx q0 rfl
    dsimp only [Option.map] at h
    by_cases hc : P
    · rw [if_pos hc] at h
      cases h
      exact hid
    · rw [if_neg hc] at h
      cases h
      exact hid

theorem WellKeyed_unInner_done {pid : Nat} {nbs : List Nat} {c0 : DoublePendulum}
    {done ps : List (Nat × DoublePendulum)}
    (hwd : WellKeyed done) (hwp : WellKeyed ps) (hnd : nbs.Nodup) :
    WellKeyed (unInner pid c0 done ps nbs).2.1 := by
  obtain ⟨-, u2, -, -⟩ := unInner_spec pid nbs c0 done ps hwd hwp hnd
  intro k q hq
  rw [u2 k] at hq
  exact id_of_mapIf (fun q0 h0 => hwd k q0 h0) hq

theorem WellKeyed_unInner_ps {pid : Nat} {nbs : List Nat} {c0 : DoublePendulum}
    {done ps : List (Nat × DoublePendulum)}
    (hwd : WellKeyed done) (hwp : WellKeyed ps) (hnd : nbs.Nodup) :
    WellKeyed (unInner pid c0 done ps nbs).2.2 := by
  obtain ⟨-, -, u3, u4⟩ := unInner_spec pid nbs c0 done ps hwd hwp hnd
  intro k q hq
  cases hdk : lookupA done k with
  | some q0 =>
    rw [u4 k q0 hdk] at hq
    exact hwp k q hq
  | none =>
    rw [u3 k hdk] at hq
    exact id_of_mapIf (fun q0 h0 => hwp k q0 h0) hq

theorem unChilds_spec (pid pfid : Nat) (pNbs : List Nat) (hnd : pNbs.Nodup) :
    ∀ (childs : List DoublePendulum) (counter : Nat)
      (done ps : List (Nat × DoublePendulum)) (nbs : List Nat)
      (acc : List DoublePendulum),
      WellKeyed done → WellKeyed ps →
      (unChilds pid pfid pNbs childs counter done ps nbs acc).1 = counter + childs.length
      ∧ (unChilds pid pfid pNbs childs counter done ps nbs acc).2.2.2.1
          = nbs ++ childIds counter childs.length
      ∧ (unChilds pid pfid pNbs childs counter done ps nbs acc).2.2.2.2
          = acc ++ repairedChilds done ps pid pfid pNbs childs counter
      ∧ (∀ k, lookupA (unChilds pid pfid pNbs childs counter done ps nbs acc).2.1 k =
          (lookupA done k).map fun q =>
            if k ∈ pNbs then
              { q with neighbors := q.neighbors ++ linkIds done ps pid childs counter k }
            else q)
      ∧ (∀ k, lookupA done k = none →
          lookupA (unChilds pid pfid pNbs childs counter done ps nbs acc).2.2.1 k =
          (lookupA ps k).map fun q =>
            if k ∈ pNbs then
              { q with neighbors := q.neighbors ++ linkIds done ps pid childs counter k }
            else q)
      ∧ (∀ k q, lookupA done k = some q →
          lookupA (unChilds pid pfid pNbs childs counter done ps nbs acc).2.2.1 k
            = lookupA ps k) := by
  intro childs
  induction childs with
  | nil =>
    intro counter done ps nbs acc hwd hwp
    refine ⟨by simp [unChilds], by simp [unChilds, childIds],
      by simp [unChilds, repairedChilds], ?_, ?_, ?_⟩
    · intro k
      simp only [unChilds, linkIds]
      cases lookupA done k with
      | none => rfl
      | some q =>
        by_cases hk : k ∈ pNbs <;> simp [hk]
    · intro k hdk
      simp only [unChilds, linkIds]
      cases lookupA ps k with
      | none => rfl
      | some q =>
        by_cases hk : k ∈ pNbs <;> simp [hk]
    · intro k q hdq
      simp only [unChilds]
  | cons ch rest ih =>
    intro counter done ps nbs acc hwd hwp
    have hstep : unChilds pid pfid pNbs (ch :: rest) counter done ps nbs acc
        = unChilds pid pfid pNbs rest (counter + 1)
            (unInner pid { ch with id := counter + 1, parent_id := pfid } done ps pNbs).2.1
            (unInner pid { ch with id := counter + 1, parent_id := pfid } done ps pNbs).2.2
            (nbs ++ [counter + 1])
            (acc ++ [(unInner pid { ch with id := counter + 1, parent_id := pfid } done ps pNbs).1]) :=
      rfl
    obtain ⟨u1, u2, u3, u4⟩ :=
      unInner_spec pid pNbs { ch with id := counter + 1, parent_id := pfid } done ps hwd hwp hnd
    simp only [qualB_idpar_child_fun, id_set_idpar, nb_set_idpar] at u1 u2 u3
    have hwd1 : WellKeyed (unInner pid { ch with id := counter + 1, parent_id := pfid } done ps pNbs).2.1 :=
      WellKeyed_unInner_done hwd hwp hnd
    have hwp1 : WellKeyed (unInner pid { ch with id := counter + 1, parent_id := pfid } done ps pNbs).2.2 :=
      WellKeyed_unInner_ps hwd hwp hnd
    have hq : qualB (unInner pid { ch with id := counter + 1, parent_id := pfid } done ps pNbs).2.1
        (unInner pid { ch with id := counter + 1, parent_id := pfid } done ps pNbs).2.2 pid
        = qualB done ps pid :=
      qualB_unInner pid pNbs _ done ps hwd hwp hnd
    obtain ⟨i1, i2, i3, i4, i5, i6⟩ :=
      ih (counter + 1)
        (unInner pid { ch with id := counter + 1, parent_id := pfid } done ps pNbs).2.1
        (unInner pid { ch with id := counter + 1, parent_id := pfid } done ps pNbs).2.2
        (nbs ++ [counter + 1])
        (acc ++ [(unInner pid { ch with id := counter + 1, parent_id := pfid } done ps pNbs).1])
        hwd1 hwp1
    rw [hstep]
    refine ⟨?_, ?_, ?_, ?_, ?_, ?_⟩
    · rw [i1]
      simp only [List.length_cons]
      omega
    · rw [i2]
      simp [childIds, List.append_assoc]
    · rw [i3, repairedChilds_congr pfid pNbs hq, u1]
      simp [repairedChilds, List.append_assoc]
    · intro k
      rw [i4 k, linkIds_congr hq rest (counter + 1) k, u2 k]
      cases hdk : lookupA done k with
      | none => rfl
      | some q =>
        dsimp only [Option.map]
        by_cases hkp : k ∈ pNbs
        · rw [if_pos hkp, if_pos hkp]
          by_cases hq2 : qualB done ps pid ch k = true
          · rw [if_pos ⟨hkp, hq2⟩]
            simp [linkIds, hq2, List.append_assoc]
          · rw [if_neg (fun h => hq2 h.2)]
            simp [linkIds, hq2]
        · rw [if_neg hkp, if_neg hkp, if_neg (fun h => hkp h.1)]
    · intro k hdk
      have hdk1 : lookupA
          (unInner pid { ch with id := counter + 1, parent_id := pfid } done ps pNbs).2.1 k
          = none := by
        rw [u2 k, hdk]
        rfl
      rw [i5 k hdk1, linkIds_congr hq rest (counter + 1) k, u3 k hdk]
      cases hpk : lookupA ps k with
      | none => rfl
      | some q =>
        dsimp only [Option.map]
        by_cases hkp : k ∈ pNbs
        · rw [if_pos hkp, if_pos hkp]
          by_cases hq2 : qualB done ps pid ch k = true
          · rw [if_pos ⟨hkp, hq2⟩]
            simp [linkIds, hq2, List.append_assoc]
          · rw [if_neg (fun h => hq2 h.2)]
            simp [linkIds, hq2]
        · rw [if_neg hkp, if_neg hkp, if_neg (fun h => hkp h.1)]
    · intro k q hdq
      have hdq1 : lookupA
          (unInner pid { ch with id := counter + 1, parent_id := pfid } done ps pNbs).2.1 k
          = some (if k ∈ pNbs ∧ qualB done ps pid ch k = true then
              { q with neighbors := q.neighbors ++ [counter + 1] } else q) := by
        rw [u2 k, hdq]
        rfl
      rw [i6 k _ hdq1]
      exact u4 k q hdq

theorem childIds_mem (x : Nat) :
    ∀ (n counter : Nat), x ∈ childIds counter n ↔ counter < x ∧ x ≤ counter + n := by
  intro n
  induction n with
  | zero =>
    intro counter
    simp [childIds]
  | succ m ih =>
    intro counter
    simp only [childIds, List.mem_cons, ih (counter + 1)]
    omega


theorem childIds_nodup : ∀ (n counter : Nat), (childIds counter n).Nodup := by
  intro n
  induction n with
  | zero => intro counter; simp [childIds]
  | succ m ih =>
    intro counter
    simp only [childIds, List.nodup_cons]
    refine ⟨?_, ih (counter + 1)⟩
    rw [childIds_mem]
    omega

theorem childIds_length : ∀ (n counter : Nat), (childIds counter n).length = n := by
  intro n
  induction n with
  | zero => intro counter; rfl
  | succ m ih =>
    intro counter
    simp [childIds, ih (counter + 1)]

theorem mem_repairedChilds {d p : List (Nat × DoublePendulum)} {pid pfid : Nat}
    {pNbs : List Nat} :
    ∀ {childs : List DoublePendulum} {counter : Nat} {c : DoublePendulum},
      c ∈ repairedChilds d p pid pfid pNbs childs counter →
      ∃ ch cj, counter ≤ cj ∧ cj < counter + childs.length ∧ ch ∈ childs ∧
        c = { ch with
              id := cj + 1
              parent_id := pfid
              neighbors := ch.neighbors ++ pNbs.filter (qualB d p pid ch) } := by
  intro childs
  induction childs with
  | nil => intro counter c h; cases h
  | cons ch0 rest ih =>
    intro counter c h
    rcases List.mem_cons.mp h with h | h
    · exact ⟨ch0, counter, Nat.le_refl _, by simp, List.mem_cons_self _ _, h⟩
    · obtain ⟨ch, cj, h1, h2, h3, h4⟩ := ih h
      refine ⟨ch, cj, by omega, ?_, List.mem_cons_of_mem _ h3, h4⟩
      simp only [List.length_cons]
      omega

theorem update_neighbors_spec (f : PendulumFamily) (pid : Nat)
    (childs : List DoublePendulum) (par : DoublePendulum)
    (hpar : lookupA f.done pid = some par)
    (hwd : WellKeyed f.done) (hwp : WellKeyed f.ps)
    (hnd : par.neighbors.Nodup) :
    ∃ f' cs, f.update_neighbors pid childs = some (f', cs)
    ∧ f'.counter = f.counter + childs.length
    ∧ cs = (repairedChilds f.done f.ps pid par.id par.neighbors childs f.counter).map
        (fun c => { c with neighbors := c.neighbors ++ childIds f.counter childs.length })
    ∧ (∀ k, lookupA f'.done k = (lookupA f.done k).map fun q =>
        if k ∈ par.neighbors then
          { q with neighbors := q.neighbors ++ linkIds f.done f.ps pid childs f.counter k }
        else q)
    ∧ (∀ k, lookupA f.done k = none →
        lookupA f'.ps k = (lookupA f.ps k).map fun q =>
          if k ∈ par.neighbors then
            { q with neighbors := q.neighbors ++ linkIds f.done f.ps pid childs f.counter k }
          else q)
    ∧ (∀ k q, lookupA f.done k = some q → lookupA f'.ps k = lookupA f.ps k) := by
  obtain ⟨c1, c2, c3, c4, c5, c6⟩ :=
    unChilds_spec pid par.id par.neighbors hnd childs f.counter f.done f.ps [] [] hwd hwp
  refine ⟨{ f with
      counter := (unChilds pid par.id par.neighbors childs f.counter f.done f.ps [] []).1
      done := (unChilds pid par.id par.neighbors childs f.counter f.done f.ps [] []).2.1
      ps := (unChilds pid par.id par.neighbors childs f.counter f.done f.ps [] []).2.2.1 },
    (unChilds pid par.id par.neighbors childs f.counter f.done f.ps [] []).2.2.2.2.map
      (fun c => { c with neighbors :=
        c.neighbors ++ (unChilds pid par.id par.neighbors childs f.counter f.done f.ps [] []).2.2.2.1 }),
    ?_, ?_, ?_, c4, c5, c6⟩
  · simp only [PendulumFamily.update_neighbors, hpar]
  · simp only [c1]
  · rw [c3, c2]
    simp only [List.nil_append]

theorem mem_insertA {α : Type} {kv : Nat × α} :
    ∀ {m : List (Nat × α)} {key : Nat} {v : α},
      kv ∈ insertA m key v → kv ∈ m ∨ kv.1 = key := by
  intro m
  induction m with
  | nil =>
    intro key v h
    simp only [insertA, List.mem_singleton] at h
    right
    rw [h]
  | cons ab rest ih =>
    intro key v h
    obtain ⟨a, b⟩ := ab
    by_cases hak : a = key
    · rw [insertA, if_pos hak] at h
      rcases List.mem_cons.mp h with h | h
      · right; rw [h]
      · left; exact List.mem_cons_of_mem _ h
    · rw [insertA, if_neg hak] at h
      rcases List.mem_cons.mp h with h | h
      · left; rw [h]; exact List.mem_cons_self _ _
      · rcases ih h with h | h
        · left; exact List.mem_cons_of_mem _ h
        · right; exact h

theorem mem_insertAllA {α : Type} {kv : Nat × α} :
    ∀ {l m : List (Nat × α)},
      kv ∈ insertAllA m l → kv ∈ m ∨ ∃ kv2 ∈ l, kv.1 = kv2.1 := by
  intro l
  induction l with
  | nil =>
    intro m h
    left
    exact h
  | cons x xs ih =>
    intro m h
    have hstep : insertAllA m (x :: xs) = insertAllA (insertA m x.1 x.2) xs := rfl
    rw [hstep] at h
    rcases ih h with h | h
    · rcases mem_insertA h with h | h
      · left; exact h
      · right; exact ⟨x, List.mem_cons_self _ _, h⟩
    · obtain ⟨kv2, hm, he⟩ := h
      right
      exact ⟨kv2, List.mem_cons_of_mem _ hm, he⟩

theorem lookupA_insertAllA_notmem {α : Type} {k : Nat} :
    ∀ {l m : List (Nat × α)}, (∀ kv ∈ l, kv.1 ≠ k) →
      lookupA (insertAllA m l) k = lookupA m k := by
  intro l
  induction l with
  | nil => intro m h; rfl
  | cons x xs ih =>
    intro m h
    have hstep : insertAllA m (x :: xs) = insertAllA (insertA m x.1 x.2) xs := rfl
    rw [hstep, ih (fun kv hkv => h kv (List.mem_cons_of_mem _ hkv)), lookupA_insertA,
      if_neg]
    intro he
    exact h x (List.mem_cons_self _ _) (by rw [he])

theorem unInner_id (pid : Nat) :
    ∀ (nbs : List Nat) (c : DoublePendulum)
      (done ps : List (Nat × DoublePendulum)),
      (unInner pid c done ps nbs).1.id = c.id := by
  intro nbs
  induction nbs with
  | nil => intro c done ps; rfl
  | cons nid rest ih =>
    intro c done ps
    simp only [unInner]
    by_cases hpid : nid = pid
    · rw [if_pos hpid]
      exact ih c done ps
    · rw [if_neg hpid]
      cases lookupA done nid with
      | some pn =>
        cases hadj : c.adjacent pn with
        | true =>
          simp only [hadj, if_true]
          rw [ih]
        | false =>
          simp only [hadj]
          simp only [Bool.false_eq_true, if_false]
          exact ih c done ps
      | none =>
        cases lookupA ps nid with
        | some pn =>
          cases hadj : c.adjacent pn with
          | true =>
            simp only [hadj, if_true]
            rw [ih]
          | false =>
            simp only [hadj]
            simp only [Bool.false_eq_true, if_false]
            exact ih c done ps
        | none => exact ih c done ps

theorem unChilds_counter (pid pfid : Nat) (pNbs : List Nat) :
    ∀ (childs : List DoublePendulum) (counter : Nat)
      (done ps : List (Nat × DoublePendulum)) (nbs : List Nat)
      (acc : List DoublePendulum),
      (unChilds pid pfid pNbs childs counter done ps nbs acc).1
        = counter + childs.length := by
  intro childs
  induction childs with
  | nil => intro counter done ps nbs acc; rfl
  | cons ch rest ih =>
    intro counter done ps nbs acc
    have hstep : unChilds pid pfid pNbs (ch :: rest) counter done ps nbs acc
        = unChilds pid pfid pNbs rest (counter + 1)
            (unInner pid { ch with id := counter + 1, parent_id := pfid } done ps pNbs).2.1
            (unInner pid { ch with id := counter + 1, parent_id := pfid } done ps pNbs).2.2
            (nbs ++ [counter + 1])
            (acc ++ [(unInner pid { ch with id := counter + 1, parent_id := pfid } done ps pNbs).1]) :=
      rfl
    rw [hstep, ih]
    simp only [List.length_cons]
    omega

theorem unChilds_acc_ids (pid pfid : Nat) (pNbs : List Nat) :
    ∀ (childs : List DoublePendulum) (counter : Nat)
      (done ps : List (Nat × DoublePendulum)) (nbs : List Nat)
      (acc : List DoublePendulum),
      ∀ c ∈ (unChilds pid pfid pNbs childs counter done ps nbs acc).2.2.2.2,
        c ∈ acc ∨ (counter < c.id ∧ c.id ≤ counter + childs.length) := by
  intro childs
  induction childs with
  | nil =>
    intro counter done ps nbs acc c hc
    left
    exact hc
  | cons ch rest ih =>
    intro counter done ps nbs acc c hc
    have hstep : unChilds pid pfid pNbs (ch :: rest) counter done ps nbs acc
        = unChilds pid pfid pNbs rest (counter + 1)
            (unInner pid { ch with id := counter + 1, parent_id := pfid } done ps pNbs).2.1
            (unInner pid { ch with id := counter + 1, parent_id := pfid } done ps pNbs).2.2
            (nbs ++ [counter + 1])
            (acc ++ [(unInner pid { ch with id := counter + 1, parent_id := pfid } done ps pNbs).1]) :=
      rfl
    rw [hstep] at hc
    rcases ih (counter + 1) _ _ _ _ c hc with h | h
    · rcases List.mem_append.mp h with h | h
      · left; exact h
      · right
        have hid : c.id = counter + 1 := by
          rw [List.mem_singleton.mp h, unInner_id, id_set_idpar]
        simp only [List.length_cons]
        omega
    · right
      simp only [List.length_cons]
      omega

theorem update_neighbors_counter {f : PendulumFamily} {pid : Nat}
    {childs : List DoublePendulum} {f2 : PendulumFamily}
    {cs : List DoublePendulum}
    (h : f.update_neighbors pid childs = some (f2, cs)) :
    f.counter ≤ f2.counter ∧ ∀ c ∈ cs, f.counter < c.id := by
  unfold PendulumFamily.update_neighbors at h
  cases hpar : lookupA f.done pid with
  | none => rw [hpar] at h; cases h
  | some par =>
    rw [hpar] at h
    simp only [Option.some.injEq, Prod.mk.injEq] at h
    obtain ⟨rfl, rfl⟩ := h
    constructor
    · simp only [unChilds_counter]
      omega
    · intro c hc
      obtain ⟨c0, hc0, rfl⟩ := List.mem_map.mp hc
      rcases unChilds_acc_ids pid par.id par.neighbors childs f.counter
          f.done f.ps [] [] c0 hc0 with h | h
      · cases h
      · simpa using h.1

theorem dive_counter {f : PendulumFamily} {p : DoublePendulum}
    {f2 : PendulumFamily} {tu : List (Nat × List DoublePendulum)}
    (h : f.dive p = some (f2, tu)) : f2.counter = f.counter := by
  unfold PendulumFamily.dive at h
  split at h
  · simp at h
  · cases hscan : diveScan f.config f.width p p.neighbors [p.id] f.diveSet
        false f.done [] with
    | none => rw [hscan] at h; simp at h
    | some out =>
      rw [hscan] at h
      obtain ⟨oskip, odive, oac, odone, otu⟩ := out
      dsimp only at h
      split at h
      · split at h
        · simp at h
        · simp only [Option.some.injEq, Prod.mk.injEq] at h
          obtain ⟨rfl, rfl⟩ := h
          rfl
      · simp only [Option.some.injEq, Prod.mk.injEq] at h
        obtain ⟨rfl, rfl⟩ := h
        rfl

theorem diveAllScan_counter :
    ∀ (ids : List Nat) (f : PendulumFamily)
      (tu : List (Nat × List DoublePendulum)) (f2 : PendulumFamily)
      (tu2 : List (Nat × List DoublePendulum)),
      diveAllScan f ids tu = some (f2, tu2) → f2.counter = f.counter := by
  intro ids
  induction ids with
  | nil =>
    intro f tu f2 tu2 h
    simp only [diveAllScan, Option.some.injEq, Prod.mk.injEq] at h
    rw [← h.1]
  | cons id rest ih =>
    intro f tu f2 tu2 h
    simp only [diveAllScan] at h
    cases hlook : lookupA f.done id with
    | none => rw [hlook] at h; cases h
    | some p =>
      rw [hlook] at h
      dsimp only at h
      cases hdive : f.dive p with
      | none => rw [hdive] at h; cases h
      | some out =>
        rw [hdive] at h
        obtain ⟨fd, tud⟩ := out
        rw [ih fd _ f2 tu2 h, dive_counter hdive]

theorem diveAllLink_keys :
    ∀ (tus : List (Nat × List DoublePendulum)) (f : PendulumFamily)
      (next : List (Nat × DoublePendulum)) (f2 : PendulumFamily)
      (nx : List (Nat × DoublePendulum)),
      diveAllLink f tus next = some (f2, nx) →
      f.counter ≤ f2.counter ∧ ∀ kv ∈ nx, kv ∈ next ∨ f.counter < kv.1 := by
  intro tus
  induction tus with
  | nil =>
    intro f next f2 nx h
    simp only [diveAllLink, Option.some.injEq, Prod.mk.injEq] at h
    obtain ⟨rfl, rfl⟩ := h
    exact ⟨Nat.le_refl _, fun kv hkv => Or.inl hkv⟩
  | cons pcs rest ih =>
    intro f next f2 nx h
    obtain ⟨pid, cs⟩ := pcs
    simp only [diveAllLink] at h
    cases hupd : f.update_neighbors pid cs with
    | none => rw [hupd] at h; cases h
    | some out =>
      rw [hupd] at h
      obtain ⟨fu, cs2⟩ := out
      obtain ⟨hcu, hids⟩ := update_neighbors_counter hupd
      obtain ⟨hc2, hmem⟩ := ih fu _ f2 nx h
      refine ⟨Nat.le_trans hcu hc2, fun kv hkv => ?_⟩
      rcases hmem kv hkv with hin | hgt
      · rcases mem_insertAllA hin with hin | hin
        · left; exact hin
        · obtain ⟨kv2, hkv2, hkey⟩ := hin
          obtain ⟨c, hc, rfl⟩ := List.mem_map.mp hkv2
          right
          rw [hkey]
          exact hids c hc
      · right
        omega

theorem bootStage_noop {f : PendulumFamily}
    {next : List (Nat × DoublePendulum)}
    (hc : ¬((next.length = 0 ∧ f.done.length = 1) ∨
        (next.length = 1 ∧ f.done.length = 0 ∧ 1 ≤ f.iter))) :
    f.bootStage next = some (f, next) := by
  unfold PendulumFamily.bootStage
  rw [if_neg hc]

theorem postPhysics_active_keeps {f : PendulumFamily} {expF : ℚ → ℚ}
    {results : List (Nat × DoublePendulum)} {f' : PendulumFamily} {k : Nat}
    {p : DoublePendulum}
    (h : f.postPhysics expF results = some f')
    (hlen : 2 ≤ (insertAllA ([] : List (Nat × DoublePendulum))
        (results.filter fun kv => !kv.2.stopped)).length)
    (hk : k ≤ f.counter)
    (hp : lookupA (insertAllA ([] : List (Nat × DoublePendulum))
        (results.filter fun kv => !kv.2.stopped)) k = some p) :
    lookupA f'.ps k = some p := by
  unfold PendulumFamily.postPhysics at h
  dsimp only at h
  have hcond : ¬(((insertAllA ([] : List (Nat × DoublePendulum))
          (results.filter fun kv => !kv.2.stopped)).length = 0 ∧
        (insertAllA f.done (results.filter fun kv => kv.2.stopped)).length = 1) ∨
      ((insertAllA ([] : List (Nat × DoublePendulum))
          (results.filter fun kv => !kv.2.stopped)).length = 1 ∧
        (insertAllA f.done (results.filter fun kv => kv.2.stopped)).length = 0 ∧
        1 ≤ f.iter + 1)) := by
    omega
  rw [bootStage_noop hcond] at h
  dsimp only at h
  split at h
  · exact absurd h (by simp)
  · rename_i f4 diveNext heq
    simp only [Option.some.injEq] at h
    subst h
    unfold PendulumFamily.dive_all at heq
    split at heq
    · exact absurd heq (by simp)
    · rename_i f2s tu hscan
      have hc0 := diveAllScan_counter _ _ _ _ _ hscan
      have hc2 : f2s.counter = f.counter := hc0
      obtain ⟨hlc, hkeys⟩ := diveAllLink_keys _ _ _ _ _ heq
      have hside : ∀ kv ∈ diveNext, kv.1 ≠ k := by
        intro kv hkv
        rcases hkeys kv hkv with hin | hgt
        · cases hin
        · omega
      show lookupA (insertAllA (insertAllA ([] : List (Nat × DoublePendulum))
          (results.filter fun kv => !kv.2.stopped)) diveNext) k = some p
      rw [lookupA_insertAllA_notmem hside]
      exact hp

theorem WellKeyed_single {i : Nat} {p : DoublePendulum} (hp : p.id = i) :
    WellKeyed [(i, p)] := by
  intro k q hq
  simp only [lookupA] at hq
  by_cases h : i = k
  · rw [if_pos h] at hq
    cases hq
    rw [hp, h]
  · rw [if_neg h] at hq
    cases hq

theorem WellKeyed_nil : WellKeyed [] := by
  intro k q hq
  cases hq

/-- C5 (amended).  After a subdivision pass, neighbor repair behaves as
follows.  (1) `update_neighbors` on a parent found in `done`, with fresh
children, assigns the children the next `childs.length` counter values as
ids and gives each child a neighbor list consisting of exactly the
qualifying former neighbors of the parent (those, other than the parent
itself, found in `done` or in the pre-generation active map and
geometrically adjacent to the child) followed by the ids of *all* the
children of the split — the child's own id included, so each child lists
itself and all of its siblings, not just the three siblings; no duplicate
ids are introduced (each child's list is duplicate-free when the parent's
was and all pre-existing ids are at most the counter).  The reverse edge
`child.id` is appended to the matched neighbor's entry: for a neighbor
resident in `done` the edge is recorded in `done` (mutual adjacency), but
for a still-active neighbor it is recorded in the stale pre-generation
active map `ps`.  (2) The generation update `postPhysics` rebuilds the
next active map from the worker results and the newly created children
only: when the bootstrap rule does not fire, the final active entry of
every still-active id at most the counter is exactly its raw worker
result — so the reverse edges written to stale active entries are
discarded and the neighbor relation is not symmetric between a new child
and a still-active former neighbor. -/
theorem neighbor_repair_spec :
    (∀ (f : PendulumFamily) (pid : Nat) (childs : List DoublePendulum)
        (par : DoublePendulum),
      lookupA f.done pid = some par →
      WellKeyed f.done → WellKeyed f.ps →
      par.neighbors.Nodup →
      (∀ x ∈ par.neighbors, x ≤ f.counter) →
      (∀ c ∈ childs, c.neighbors = []) →
      ∃ f' cs, f.update_neighbors pid childs = some (f', cs)
        ∧ f'.counter = f.counter + childs.length
        ∧ cs = (repairedChilds f.done f.ps pid par.id par.neighbors childs f.counter).map
            (fun c => { c with neighbors := c.neighbors ++ childIds f.counter childs.length })
        ∧ (∀ c ∈ cs, c.parent_id = par.id ∧ c.id ∈ c.neighbors ∧ c.neighbors.Nodup)
        ∧ (∀ k, lookupA f'.done k = (lookupA f.done k).map fun q =>
            if k ∈ par.neighbors then
              { q with neighbors := q.neighbors ++ linkIds f.done f.ps pid childs f.counter k }
            else q)
        ∧ (∀ k, lookupA f.done k = none →
            lookupA f'.ps k = (lookupA f.ps k).map fun q =>
              if k ∈ par.neighbors then
                { q with neighbors := q.neighbors ++ linkIds f.done f.ps pid childs f.counter k }
              else q)
        ∧ (∀ k q, lookupA f.done k = some q → lookupA f'.ps k = lookupA f.ps k))
    ∧ (∀ (f : PendulumFamily) (expF : ℚ → ℚ)
        (results : List (Nat × DoublePendulum)) (f' : PendulumFamily)
        (k : Nat) (p : DoublePendulum),
      f.postPhysics expF results = some f' →
      2 ≤ (insertAllA ([] : List (Nat × DoublePendulum))
          (results.filter fun kv => !kv.2.stopped)).length →
      k ≤ f.counter →
      lookupA (insertAllA ([] : List (Nat × DoublePendulum))
          (results.filter fun kv => !kv.2.stopped)) k = some p →
      lookupA f'.ps k = some p) := by
  constructor
  · intro f pid childs par hpar hwd hwp hnd hfresh hch
    obtain ⟨f', cs, h1, h2, h3, h4, h5, h6⟩ :=
      update_neighbors_spec f pid childs par hpar hwd hwp hnd
    refine ⟨f', cs, h1, h2, h3, ?_, h4, h5, h6⟩
    intro c hc
    rw [h3] at hc
    obtain ⟨c0, hc0, rfl⟩ := List.mem_map.mp hc
    obtain ⟨ch, cj, hcj1, hcj2, hchm, rfl⟩ := mem_repairedChilds hc0
    have hchnb : ch.neighbors = [] := hch ch hchm
    refine ⟨rfl, ?_, ?_⟩
    · have hidm : cj + 1 ∈ childIds f.counter childs.length := by
        rw [childIds_mem]
        omega
      dsimp only
      exact List.mem_append.mpr (Or.inr hidm)
    · dsimp only
      rw [hchnb, List.nil_append]
      apply List.Nodup.append
      · exact hnd.filter _
      · exact childIds_nodup _ _
      · intro x hx1 hx2
        have hxp : x ∈ par.neighbors := (List.mem_filter.mp hx1).1
        have hxc : x ≤ f.counter := hfresh x hxp
        have hxb := (childIds_mem x _ _).mp hx2
        omega
  · intro f expF results f' k p h hlen hk hp
    exact postPhysics_active_keeps h hlen hk hp

/-- Concrete instance of the neighbor-repair characterization: one fresh
child under the root parent (no former neighbors), and one generation with
two still-active worker results whose active entries survive untouched. -/
theorem neighbor_repair_witness :
    (lookupA witFam.done 1 = some witPar
      ∧ witPar.neighbors.Nodup
      ∧ (∀ c ∈ [witChild], c.neighbors = [])
      ∧ ∃ f' cs, witFam.update_neighbors 1 [witChild] = some (f', cs)
        ∧ f'.counter = 6
        ∧ (∀ c ∈ cs, c.parent_id = 1 ∧ c.id ∈ c.neighbors ∧ c.neighbors.Nodup))
    ∧ (2 ≤ (insertAllA ([] : List (Nat × DoublePendulum))
          (witRes2.filter fun kv => !kv.2.stopped)).length
      ∧ ∃ f', witFam2.postPhysics (fun q => q) witRes2 = some f'
        ∧ lookupA f'.ps 1 = some witActA) := by
  constructor
  · refine ⟨rfl, List.nodup_nil, ?_, ?_⟩
    · intro c hc
      rw [List.mem_singleton.mp hc]
      rfl
    · obtain ⟨f', cs, h1, h2, h3, h4, h5, h6, h7⟩ :=
        neighbor_repair_spec.1 witFam 1 [witChild] witPar rfl
          (WellKeyed_single rfl) WellKeyed_nil List.nodup_nil
          (fun x hx => absurd hx (List.not_mem_nil x))
          (fun c hc => by rw [List.mem_singleton.mp hc]; rfl)
      exact ⟨f', cs, h1, by rw [h2]; rfl, h4⟩
  · refine ⟨by norm_num [witRes2, witActA, witActB, rootCell, DoublePendulum.new2,
      DoublePendulum.new, insertAllA, insertA], ?_⟩
    obtain ⟨f', hf'⟩ : ∃ f', witFam2.postPhysics (fun q => q) witRes2 = some f' := by
      simp [PendulumFamily.postPhysics, PendulumFamily.bootStage,
        PendulumFamily.dive_all, diveAllScan, diveAllLink, witFam2, witRes2,
        witActA, witActB, rootCell, DoublePendulum.new2, DoublePendulum.new,
        insertAllA, insertA]
    refine ⟨f', hf', neighbor_repair_spec.2 witFam2 (fun q => q) witRes2 f' 1 witActA
      hf' ?_ ?_ ?_⟩
    · norm_num [witRes2, witActA, witActB, rootCell, DoublePendulum.new2,
        DoublePendulum.new, insertAllA, insertA]
    · norm_num [witFam2]
    · rfl

/-- Refutation of the original claim on a concrete generation: the parent
(cell 1, half-side 256) stops and is split by the divergence pass (its done
neighbor 3 is far behind in steps); the new child 7 ends up with neighbor
list `[2, 3, 4, 5, 6, 7]` — containing its own id 7 and all four children
4-7, not "its three siblings" — and containing the still-active cell 2,
while cell 2's entry in the new active map still has neighbor list `[1]`:
the reverse edge 7 was written to the stale pre-generation entry of cell 2
and discarded, so the neighbor relation is not symmetric. -/
theorem neighbor_repair_counterexample :
    ∃ f', cex5Fam.postPhysics (fun _ => 0) cex5Res = some f'
      ∧ (∃ c4, lookupA f'.ps 7 = some c4
          ∧ c4.neighbors = [2, 3, 4, 5, 6, 7]
          ∧ c4.id = 7 ∧ 7 ∈ c4.neighbors ∧ 2 ∈ c4.neighbors)
      ∧ (∃ n2, lookupA f'.ps 2 = some n2
          ∧ n2.neighbors = [1] ∧ 7 ∉ n2.neighbors) := by
  obtain ⟨f', hf'⟩ : ∃ f', cex5Fam.postPhysics (fun _ => 0) cex5Res = some f' := by
    norm_num [PendulumFamily.postPhysics, PendulumFamily.bootStage,
      PendulumFamily.dive_all, diveAllScan, diveAllLink, PendulumFamily.dive,
      diveScan, PendulumFamily.update_neighbors, unChilds, unInner,
      DoublePendulum.split, DoublePendulum.adjacent, DoublePendulum.width,
      DoublePendulum.new2, DoublePendulum.new, insertAllA, insertA, modifyA,
      lookupA, RollingAverage.add, cex5Fam, cex5Res, cex5P, cex5Act, cex5Done3,
      cfgMain, epsilonAdj]
  have hval := hf'
  norm_num [PendulumFamily.postPhysics, PendulumFamily.bootStage,
    PendulumFamily.dive_all, diveAllScan, diveAllLink, PendulumFamily.dive,
    diveScan, PendulumFamily.update_neighbors, unChilds, unInner,
    DoublePendulum.split, DoublePendulum.adjacent, DoublePendulum.width,
    DoublePendulum.new2, DoublePendulum.new, insertAllA, insertA, modifyA,
    lookupA, RollingAverage.add, cex5Fam, cex5Res, cex5P, cex5Act, cex5Done3,
    cfgMain, epsilonAdj] at hval
  subst hval
  refine ⟨_, hf', ?_, ?_⟩
  · simp [lookupA]
  · simp [lookupA]
